import Mathlib

/-!
Verification development for the Folio CLI's schema-driven validation and
indexing engine.

The definitions below are a shallow embedding of the TypeScript source:

* `src/utils/indexing.ts` — the Index Synchronizer (`updateIndexFile`):
  marker-delimited merge of a freshly rendered index region into an
  existing `index.md`, plus the id-based document sort.
* the `validate` command — `buildZodSchema` (dynamic schema → zod
  validator) and `validateDocType` (per-document validation plus
  cross-document uniqueness checking backed by a JS `Map`).

File contents are modelled as `List Char` (JS strings are sequences of
code units; all operations used by the source — `indexOf`, `substring`,
`trim`, concatenation — are positional and faithfully mirrored on lists).
-/

namespace Folio

/-- JS string contents, modelled as a list of characters. -/
abbrev Str := List Char

/-! ## Index synchronizer: constants (src/utils/indexing.ts) -/

/-- The literal `START_MARKER` sentinel from indexing.ts. -/
def START_MARKER : Str := "<!-- FOLIO:INDEX:START -->".toList

/-- The literal `END_MARKER` sentinel from indexing.ts. -/
def END_MARKER : Str := "<!-- FOLIO:INDEX:END -->".toList

/-- The two-newline separator written by the template literals in
`updateIndexFile` (the `\n\n` pieces of `${START_MARKER}\n\n${newIndexContent}\n\n${END_MARKER}`,
`${existingContent.trim()}\n\n${fullNewContent}` and `# Index of ${title}\n\n${fullNewContent}`). -/
def NL2 : Str := ['\n', '\n']

/-! ## JS primitives used by updateIndexFile -/

/-- Occurrence of `n` in `h` at position `i` (there is room, and the
characters match): `String.prototype.indexOf` finds the least such `i`. -/
def occursAt (n h : Str) (i : Nat) : Prop := n.isPrefixOf (h.drop i) = true

instance occursAtDecidable (n h : Str) (i : Nat) : Decidable (occursAt n h i) :=
  inferInstanceAs (Decidable (n.isPrefixOf (h.drop i) = true))

/-- JS `haystack.indexOf(needle)`, returning `none` for `-1`. -/
def firstOccur (n : Str) : Str → Option Nat
  | [] => if n = [] then some 0 else none
  | c :: t => if n.isPrefixOf (c :: t) then some 0 else (firstOccur n t).map (· + 1)

/-- Whitespace recognised by `String.prototype.trim` (ASCII subset; the
contents this tool manipulates are Markdown text where these are the
whitespace characters that occur). -/
def isJsWs (ch : Char) : Bool :=
  ch = ' ' || ch = '\t' || ch = '\n' || ch = '\r' || ch = '\x0b' || ch = '\x0c'

/-- JS `content.trim()`: strip leading and trailing whitespace. -/
def jsTrim (c : Str) : Str :=
  ((c.dropWhile isJsWs).reverse.dropWhile isJsWs).reverse

/-- A word character in the sense of the regex `\w` (used by `\b\w`). -/
def isWordChar (ch : Char) : Bool := ch.isAlphanum || ch = '_'

/-- Helper for `replace(/\b\w/g, l => l.toUpperCase())`: uppercase every
word character that starts a word; the boolean argument records whether the
previous character was a word character. -/
def capWords : Bool → Str → Str
  | _, [] => []
  | prevWord, ch :: t =>
    (if !prevWord && isWordChar ch then ch.toUpper else ch) :: capWords (isWordChar ch) t

/-- The generated index title from `updateIndexFile`'s ENOENT branch:
`docTypeConfig.path.replace(/[-_]/g, " ").replace(/\b\w/g, l => l.toUpperCase())`. -/
def mkTitle (path : Str) : Str :=
  capWords false (path.map (fun ch => if ch = '-' || ch = '_' then ' ' else ch))

/-- The `fullNewContent` template literal:
`${START_MARKER}\n\n${newIndexContent}\n\n${END_MARKER}`. -/
def fullNewContent (region : Str) : Str :=
  START_MARKER ++ NL2 ++ region ++ NL2 ++ END_MARKER

/-- The content-merging core of `updateIndexFile` (step 4 of the source):
given the existing index file content (`none` when reading it raised
ENOENT), the freshly rendered region `newIndexContent`, and the document
type's `path`, produce the final file content that is written back. -/
def updateContent (existing : Option Str) (region : Str) (path : Str) : Str :=
  match existing with
  | some content =>
    match firstOccur START_MARKER content, firstOccur END_MARKER content with
    | some startIdx, some endIdx =>
      content.take startIdx ++ fullNewContent region ++ content.drop (endIdx + END_MARKER.length)
    | _, _ => jsTrim content ++ NL2 ++ fullNewContent region
  | none => "# Index of ".toList ++ mkTitle path ++ NL2 ++ fullNewContent region

/-! ## Basic facts about occurrences and firstOccur -/

theorem occursAt_iff {n h : Str} {i : Nat} : occursAt n h i ↔ n <+: h.drop i := by
  rw [occursAt, List.isPrefixOf_iff_prefix]

theorem occursAt_length {n h : Str} {i : Nat} (hn : n ≠ []) (h₁ : occursAt n h i) :
    i + n.length ≤ h.length := by
  rw [occursAt_iff] at h₁
  have hlen := h₁.length_le
  rw [List.length_drop] at hlen
  have : 0 < n.length := List.length_pos.mpr hn
  omega

theorem occursAt_mem {n h : Str} {i : Nat} (h₁ : occursAt n h i) {ch : Char} (hc : ch ∈ n) :
    ch ∈ h := by
  rw [occursAt_iff] at h₁
  obtain ⟨t, ht⟩ := h₁
  have : ch ∈ h.drop i := by
    rw [← ht]
    exact List.mem_append_left _ hc
  exact List.mem_of_mem_drop this

theorem firstOccur_spec {n h : Str} {i : Nat} (hfo : firstOccur n h = some i) :
    occursAt n h i ∧ ∀ j, j < i → ¬ occursAt n h j := by
  induction h generalizing i with
  | nil =>
    rw [firstOccur] at hfo
    by_cases hn : n = []
    · subst hn
      simp at hfo
      subst hfo
      exact ⟨by rw [occursAt]; rfl, by omega⟩
    · simp [hn] at hfo
  | cons c t ih =>
    rw [firstOccur] at hfo
    by_cases hp : n.isPrefixOf (c :: t) = true
    · rw [if_pos hp] at hfo
      injection hfo with hi
      subst hi
      exact ⟨by rw [occursAt, List.drop_zero]; exact hp, by omega⟩
    · rw [if_neg hp] at hfo
      obtain ⟨i', hi', rfl⟩ := Option.map_eq_some'.mp hfo
      obtain ⟨h1, h2⟩ := ih hi'
      refine ⟨h1, ?_⟩
      intro j hj
      match j with
      | 0 => rw [occursAt, List.drop_zero]; simpa using hp
      | j' + 1 =>
        have : j' < i' := by omega
        exact h2 j' this

theorem firstOccur_none {n h : Str} (hfo : firstOccur n h = none) :
    ∀ i, ¬ occursAt n h i := by
  induction h with
  | nil =>
    rw [firstOccur] at hfo
    by_cases hn : n = []
    · simp [hn] at hfo
    · intro i
      rw [occursAt]
      cases i <;> simpa using (fun hcontra => hn (List.prefix_nil.mp
        (List.isPrefixOf_iff_prefix.mp hcontra)))
  | cons c t ih =>
    rw [firstOccur] at hfo
    by_cases hp : n.isPrefixOf (c :: t) = true
    · rw [if_pos hp] at hfo
      exact absurd hfo (by simp)
    · rw [if_neg hp] at hfo
      have ht : firstOccur n t = none := by
        cases hfoc : firstOccur n t with
        | none => rfl
        | some v => rw [hfoc] at hfo; simp at hfo
      intro i
      match i with
      | 0 => rw [occursAt, List.drop_zero]; simpa using hp
      | i' + 1 => exact ih ht i'

theorem firstOccur_eq_some {n h : Str} {i : Nat} (h₁ : occursAt n h i)
    (h₂ : ∀ j, j < i → ¬ occursAt n h j) : firstOccur n h = some i := by
  cases hfo : firstOccur n h with
  | none => exact absurd h₁ (firstOccur_none hfo i)
  | some i' =>
    obtain ⟨h1', h2'⟩ := firstOccur_spec hfo
    rcases Nat.lt_trichotomy i i' with hlt | heq | hgt
    · exact absurd h₁ (h2' i hlt)
    · rw [heq]
    · exact absurd h1' (h₂ i' hgt)

/-! ## Occurrences in concatenations -/

theorem occursAt_append_right {n b : Str} {j : Nat} (h₁ : occursAt n b j) (a : Str) :
    occursAt n (a ++ b) (a.length + j) := by
  rw [occursAt_iff] at h₁ ⊢
  rwa [List.drop_append]

theorem occursAt_append_left {n a : Str} {i : Nat} (h₁ : occursAt n a i) (b : Str) :
    occursAt n (a ++ b) i := by
  rw [occursAt_iff] at h₁ ⊢
  by_cases hi : i ≤ a.length
  · rw [List.drop_append_of_le_length hi]
    obtain ⟨t, ht⟩ := h₁
    exact ⟨t ++ b, by rw [← List.append_assoc, ht]⟩
  · have : a.drop i = [] := List.drop_eq_nil_of_le (by omega)
    rw [this] at h₁
    have : n = [] := List.prefix_nil.mp h₁
    subst this
    exact List.nil_prefix

theorem prefix_of_append_of_length_le {n x b : Str} (h₁ : n <+: x ++ b)
    (h₂ : n.length ≤ x.length) : n <+: x := by
  have := List.prefix_iff_eq_take.mp h₁
  rw [List.take_append_of_le_length h₂] at this
  rw [this]
  exact List.take_prefix _ _

theorem append_prefix_split {n x b : Str} (h₁ : n <+: x ++ b) (h₂ : x.length ≤ n.length) :
    n.drop x.length <+: b := by
  obtain ⟨r, hr⟩ := h₁
  have hx : x = n.take x.length := by
    have : (n ++ r).take x.length = (x ++ b).take x.length := by rw [hr]
    rw [List.take_append_of_le_length h₂, List.take_left] at this
    exact this.symm
  have hn : n = x ++ n.drop x.length := by
    conv_lhs => rw [← List.take_append_drop x.length n]
    rw [← hx]
  rw [hn, List.append_assoc] at hr
  have := List.append_cancel_left hr
  exact ⟨r, this⟩

/-- Decomposition of an occurrence in a concatenation: it lies inside the
left part, inside the right part, or crosses the boundary. -/
theorem occursAt_append_elim {n a b : Str} {i : Nat} (hocc : occursAt n (a ++ b) i) :
    (i + n.length ≤ a.length ∧ occursAt n a i) ∨
    (a.length ≤ i ∧ occursAt n b (i - a.length)) ∨
    (∃ k, k = a.length - i ∧ 0 < k ∧ k < n.length ∧ n.drop k <+: b) := by
  rw [occursAt_iff] at hocc
  by_cases hi : a.length ≤ i
  · refine Or.inr (Or.inl ⟨hi, ?_⟩)
    rw [occursAt_iff]
    have : i = a.length + (i - a.length) := by omega
    rwa [this, List.drop_append] at hocc
  · push_neg at hi
    rw [List.drop_append_of_le_length (by omega)] at hocc
    by_cases hlen : n.length ≤ a.length - i
    · refine Or.inl ⟨by omega, ?_⟩
      rw [occursAt_iff]
      exact prefix_of_append_of_length_le hocc (by rw [List.length_drop]; omega)
    · push_neg at hlen
      refine Or.inr (Or.inr ⟨a.length - i, rfl, by omega, hlen, ?_⟩)
      have := append_prefix_split hocc (by rw [List.length_drop]; omega)
      rwa [List.length_drop] at this

theorem mem_of_prefix_cons {n b : Str} {c : Char} (hn : n ≠ []) (h : n <+: c :: b) :
    c ∈ n := by
  cases n with
  | nil => exact absurd rfl hn
  | cons d t =>
    obtain ⟨r, hr⟩ := h
    have : d = c := (List.cons.injEq d (t ++ r) c b).mp hr |>.1
    rw [this]
    exact List.mem_cons_self _ _

/-- An occurrence of a newline-free string in `a ++ '\n' :: '\n' :: b` is
entirely inside `a` or entirely inside `b`. -/
theorem occursAt_nl_elim {n a b : Str} {i : Nat} (hnl : '\n' ∉ n) (hn : n ≠ [])
    (hocc : occursAt n (a ++ '\n' :: '\n' :: b) i) :
    (i + n.length ≤ a.length ∧ occursAt n a i) ∨
    (a.length + 2 ≤ i ∧ occursAt n b (i - a.length - 2)) := by
  rcases occursAt_append_elim hocc with ⟨h1, h2⟩ | ⟨h1, h2⟩ | ⟨k, hk, hk0, hkn, hkp⟩
  · exact Or.inl ⟨h1, h2⟩
  · rw [occursAt_iff] at h2
    rcases Nat.lt_or_ge (i - a.length) 2 with hd | hd
    · exfalso
      apply hnl
      have hd01 : i - a.length = 0 ∨ i - a.length = 1 := by omega
      rcases hd01 with h0 | h1'
      · rw [h0, List.drop_zero] at h2
        exact mem_of_prefix_cons hn h2
      · rw [h1', List.drop_one] at h2
        exact mem_of_prefix_cons hn h2
    · refine Or.inr ⟨by omega, ?_⟩
      rw [occursAt_iff]
      have hsplit : i - a.length = (i - a.length - 2) + 1 + 1 := by omega
      rw [hsplit, List.drop_succ_cons, List.drop_succ_cons] at h2
      exact h2
  · exfalso
    apply hnl
    have hne : n.drop k ≠ [] := by
      intro hcontra
      have := congrArg List.length hcontra
      rw [List.length_drop] at this
      simp only [List.length_nil] at this
      omega
    have : '\n' ∈ n.drop k := mem_of_prefix_cons hne hkp
    exact List.mem_of_mem_drop this

/-! ## Concrete facts about the two marker strings -/

theorem smark_ne_nil : START_MARKER ≠ [] := by decide

theorem emark_ne_nil : END_MARKER ≠ [] := by decide

theorem smark_length : START_MARKER.length = 26 := by decide

theorem emark_length : END_MARKER.length = 24 := by decide

theorem nl_not_mem_smark : '\n' ∉ START_MARKER := by decide

theorem nl_not_mem_emark : '\n' ∉ END_MARKER := by decide

theorem dash_mem_smark : '-' ∈ START_MARKER := by decide

theorem dash_mem_emark : '-' ∈ END_MARKER := by decide

/-- The start marker has no self-overlap: no proper nonempty suffix of it is
one of its prefixes. -/
theorem smark_no_border :
    ∀ k, k < 26 → 0 < k → (START_MARKER.drop k).isPrefixOf START_MARKER = false := by decide

/-- No proper nonempty suffix of the end marker is a prefix of the start marker. -/
theorem emark_smark_no_cross :
    ∀ k, k < 24 → 0 < k → (END_MARKER.drop k).isPrefixOf START_MARKER = false := by decide

/-- The end marker does not occur inside the start marker. -/
theorem emark_not_in_smark :
    ∀ m, m < 3 → END_MARKER.isPrefixOf (START_MARKER.drop m) = false := by decide

/-! ## Shape lemmas for the rendered block -/

theorem full_cons_shape (r c : Str) : fullNewContent r ++ c =
    START_MARKER ++ ('\n' :: '\n' :: (r ++ ('\n' :: '\n' :: (END_MARKER ++ c)))) := by
  simp [fullNewContent, NL2, List.append_assoc]

theorem full_block_shape (r c : Str) : fullNewContent r ++ c =
    (START_MARKER ++ NL2 ++ r ++ NL2) ++ (END_MARKER ++ c) := by
  simp [fullNewContent, List.append_assoc]

theorem full_block_length (r : Str) : (START_MARKER ++ NL2 ++ r ++ NL2).length = r.length + 30 := by
  simp [NL2]
  have := smark_length
  omega

theorem full_length (r : Str) : (fullNewContent r).length = r.length + 54 := by
  simp [fullNewContent, NL2]
  have h1 := smark_length
  have h2 := emark_length
  omega

/-! ## Where the markers can occur around a rendered block -/

/-- An occurrence of the start marker strictly before a rendered block lies
entirely in the text before the block (it cannot cross into the block). -/
theorem smark_no_cross_into_full {a r c : Str} {i : Nat}
    (hocc : occursAt START_MARKER (a ++ (fullNewContent r ++ c)) i) (hi : i < a.length) :
    occursAt START_MARKER a i := by
  rcases occursAt_append_elim hocc with ⟨_, h2⟩ | ⟨h1, _⟩ | ⟨k, hk, hk0, hkn, hkp⟩
  · exact h2
  · omega
  · exfalso
    rw [full_cons_shape] at hkp
    have hlen : (START_MARKER.drop k).length ≤ START_MARKER.length := by
      rw [List.length_drop]
      omega
    have hpre := prefix_of_append_of_length_le hkp hlen
    have hkn26 : k < 26 := by rw [smark_length] at hkn; exact hkn
    have := smark_no_border k hkn26 hk0
    rw [List.isPrefixOf_iff_prefix.symm] at hpre
    rw [this] at hpre
    exact Bool.false_ne_true hpre

/-- An occurrence of the end marker strictly before a rendered block lies
entirely in the text before the block. -/
theorem emark_no_cross_into_full {a r c : Str} {i : Nat}
    (hocc : occursAt END_MARKER (a ++ (fullNewContent r ++ c)) i) (hi : i < a.length) :
    occursAt END_MARKER a i := by
  rcases occursAt_append_elim hocc with ⟨_, h2⟩ | ⟨h1, _⟩ | ⟨k, hk, hk0, hkn, hkp⟩
  · exact h2
  · omega
  · exfalso
    rw [full_cons_shape] at hkp
    have hlen : (END_MARKER.drop k).length ≤ START_MARKER.length := by
      rw [List.length_drop, smark_length, emark_length]
      omega
    have hpre := prefix_of_append_of_length_le hkp hlen
    have hkn24 : k < 24 := by rw [emark_length] at hkn; exact hkn
    have := emark_smark_no_cross k hkn24 hk0
    rw [List.isPrefixOf_iff_prefix.symm] at hpre
    rw [this] at hpre
    exact Bool.false_ne_true hpre

/-- The end marker does not occur in a rendered block (followed by anything)
before the block's own closing end marker, provided the rendered region is
end-marker-free. -/
theorem no_early_emark_in_full {r c : Str} (hr : ∀ i, ¬ occursAt END_MARKER r i) :
    ∀ m, m < r.length + 30 → ¬ occursAt END_MARKER (fullNewContent r ++ c) m := by
  intro m hm hocc
  rw [full_cons_shape] at hocc
  rcases occursAt_append_elim hocc with ⟨h1, h2⟩ | ⟨h1, h2⟩ | ⟨k, hk, hk0, hkn, hkp⟩
  · rw [smark_length, emark_length] at h1
    have hm3 : m < 3 := by omega
    have := emark_not_in_smark m hm3
    rw [occursAt] at h2
    rw [this] at h2
    exact Bool.false_ne_true h2
  · rw [smark_length] at h1
    rcases occursAt_nl_elim (a := ([] : Str)) nl_not_mem_emark emark_ne_nil (by simpa using h2)
      with ⟨hb1, _⟩ | ⟨hb1, hb2⟩
    · rw [emark_length] at hb1
      simp only [List.length_nil] at hb1
      omega
    · simp only [List.length_nil, Nat.sub_zero] at hb1 hb2
      rcases occursAt_nl_elim nl_not_mem_emark emark_ne_nil hb2 with ⟨_, hc2⟩ | ⟨hc1, _⟩
      · exact hr _ hc2
      · have hs26 := smark_length
        omega
  · exfalso
    have hne : END_MARKER.drop k ≠ [] := by
      intro hcontra
      have := congrArg List.length hcontra
      rw [List.length_drop] at this
      simp only [List.length_nil] at this
      omega
    have : '\n' ∈ END_MARKER.drop k := mem_of_prefix_cons hne hkp
    exact nl_not_mem_emark (List.mem_of_mem_drop this)

/-- The rendered block's own end marker occurs at offset `r.length + 30`. -/
theorem emark_at_block_end (r c : Str) :
    occursAt END_MARKER (fullNewContent r ++ c) (r.length + 30) := by
  rw [occursAt_iff, full_block_shape]
  rw [← full_block_length r, List.drop_left]
  exact List.prefix_append END_MARKER c

/-- The rendered block starts with the start marker. -/
theorem smark_at_block_start (r c : Str) :
    occursAt START_MARKER (fullNewContent r ++ c) 0 := by
  rw [occursAt_iff, full_cons_shape, List.drop_zero]
  exact List.prefix_append START_MARKER _

/-! ## First marker occurrences in a merged file -/

theorem firstOccur_smark_block {before r after : Str}
    (hs : ∀ i, ¬ occursAt START_MARKER before i) :
    firstOccur START_MARKER (before ++ (fullNewContent r ++ after)) = some before.length := by
  apply firstOccur_eq_some
  · have h0 := smark_at_block_start r after
    have h1 := occursAt_append_right h0 before
    rwa [Nat.add_zero] at h1
  · intro j hj hocc
    exact hs j (smark_no_cross_into_full hocc hj)

theorem firstOccur_emark_block {before r after : Str}
    (he : ∀ i, ¬ occursAt END_MARKER before i)
    (hr : ∀ i, ¬ occursAt END_MARKER r i) :
    firstOccur END_MARKER (before ++ (fullNewContent r ++ after)) =
      some (before.length + (r.length + 30)) := by
  apply firstOccur_eq_some
  · exact occursAt_append_right (emark_at_block_end r after) before
  · intro j hj hocc
    by_cases hjb : j < before.length
    · exact he j (emark_no_cross_into_full hocc hjb)
    · push_neg at hjb
      rcases occursAt_append_elim hocc with ⟨h1, _⟩ | ⟨_, h2⟩ | ⟨k, hk, hk0, _, _⟩
      · have := emark_length
        omega
      · exact no_early_emark_in_full hr (j - before.length) (by omega) h2
      · omega

theorem firstOccur_smark_nl_block {t r : Str} (hs : ∀ i, ¬ occursAt START_MARKER t i) :
    firstOccur START_MARKER (t ++ '\n' :: '\n' :: fullNewContent r) = some (t.length + 2) := by
  apply firstOccur_eq_some
  · have h0 := smark_at_block_start r []
    rw [List.append_nil] at h0
    have h2 : occursAt START_MARKER ('\n' :: '\n' :: fullNewContent r) 2 := h0
    have h3 := occursAt_append_right h2 t
    exact h3
  · intro j hj hocc
    rcases occursAt_nl_elim nl_not_mem_smark smark_ne_nil hocc with ⟨_, h2⟩ | ⟨h1, _⟩
    · exact hs j h2
    · omega

theorem firstOccur_emark_nl_block {t r : Str} (ht : ∀ i, ¬ occursAt END_MARKER t i)
    (hr : ∀ i, ¬ occursAt END_MARKER r i) :
    firstOccur END_MARKER (t ++ '\n' :: '\n' :: fullNewContent r) =
      some (t.length + (2 + (r.length + 30))) := by
  apply firstOccur_eq_some
  · have h0 := emark_at_block_end r []
    rw [List.append_nil] at h0
    have h2 : occursAt END_MARKER ('\n' :: '\n' :: fullNewContent r) (2 + (r.length + 30)) := by
      rw [occursAt] at h0 ⊢
      rw [show (2 + (r.length + 30)) = (r.length + 30) + 1 + 1 by omega]
      rw [List.drop_succ_cons, List.drop_succ_cons]
      exact h0
    exact occursAt_append_right h2 t
  · intro j hj hocc
    rcases occursAt_nl_elim nl_not_mem_emark emark_ne_nil hocc with ⟨_, h2⟩ | ⟨h1, h2⟩
    · exact ht j h2
    · have h3 : j - t.length - 2 < r.length + 30 := by omega
      have h4 := no_early_emark_in_full (c := []) hr (j - t.length - 2) h3
      rw [List.append_nil] at h4
      exact h4 h2

/-! ## Marker-freeness of the pieces the synchronizer reuses -/

theorem occursAt_take {n c : Str} {m j : Nat} (h : occursAt n (c.take m) j) : occursAt n c j := by
  have h1 := occursAt_append_left h (c.drop m)
  rwa [List.take_append_drop] at h1

theorem take_smark_free {c : Str} {iS : Nat} (hS : firstOccur START_MARKER c = some iS) :
    ∀ j, ¬ occursAt START_MARKER (c.take iS) j := by
  intro j hocc
  have hc := occursAt_take hocc
  have hlen := occursAt_length smark_ne_nil hocc
  have htk : (c.take iS).length ≤ iS := by
    rw [List.length_take]
    exact Nat.min_le_left _ _
  have hj : j < iS := by
    have := smark_length
    omega
  exact (firstOccur_spec hS).2 j hj hc

theorem take_emark_free {c : Str} {iS iE : Nat} (hE : firstOccur END_MARKER c = some iE)
    (hle : iS ≤ iE) : ∀ j, ¬ occursAt END_MARKER (c.take iS) j := by
  intro j hocc
  have hc := occursAt_take hocc
  have hlen := occursAt_length emark_ne_nil hocc
  have htk : (c.take iS).length ≤ iS := by
    rw [List.length_take]
    exact Nat.min_le_left _ _
  have hj : j < iE := by
    have := emark_length
    omega
  exact (firstOccur_spec hE).2 j hj hc

/-- The trimmed content is a contiguous portion of the original. -/
theorem jsTrim_infix (c : Str) : ∃ u v, c = u ++ jsTrim c ++ v := by
  obtain ⟨u, hu⟩ := List.dropWhile_suffix (l := c) isJsWs
  have hpre : jsTrim c <+: c.dropWhile isJsWs := by
    have hsuf := List.dropWhile_suffix (l := (c.dropWhile isJsWs).reverse) isJsWs
    rw [jsTrim]
    rw [← List.reverse_reverse (c.dropWhile isJsWs)]
    rw [List.reverse_prefix]
    rwa [List.reverse_reverse]
  obtain ⟨w, hw⟩ := hpre
  refine ⟨u, w, ?_⟩
  rw [List.append_assoc, hw, hu]

theorem trim_marker_free {n c : Str} (hc : firstOccur n c = none) :
    ∀ j, ¬ occursAt n (jsTrim c) j := by
  intro j hocc
  obtain ⟨u, v, huv⟩ := jsTrim_infix c
  have h1 := occursAt_append_left hocc v
  have h2 := occursAt_append_right h1 u
  apply firstOccur_none hc (u.length + j)
  rw [huv, List.append_assoc]
  exact h2

/-! ## The generated title contains no dash, hence no marker -/

theorem toNat_charOfNat {m : Nat} (h : m.isValidChar) : (Char.ofNat m).toNat = m := by
  rw [Char.ofNat, dif_pos h]
  simp [Char.ofNatAux, Char.toNat, UInt32.toNat]

theorem toUpper_ne_dash {ch : Char} (hc : ch ≠ '-') : ch.toUpper ≠ '-' := by
  unfold Char.toUpper
  show (if ch.toNat ≥ 97 ∧ ch.toNat ≤ 122 then Char.ofNat (ch.toNat - 32) else ch) ≠ '-'
  by_cases h : ch.toNat ≥ 97 ∧ ch.toNat ≤ 122
  · rw [if_pos h]
    intro heq
    have hvalid : (ch.toNat - 32).isValidChar := by
      constructor
      omega
    have hv : (Char.ofNat (ch.toNat - 32)).toNat = ('-').toNat := congrArg Char.toNat heq
    rw [toNat_charOfNat hvalid] at hv
    have h45 : ('-').toNat = 45 := by decide
    omega
  · rw [if_neg h]
    exact hc

theorem capWords_mem {l : Str} {b : Bool} {ch : Char} (h : ch ∈ capWords b l) :
    ch ∈ l ∨ ∃ d, d ∈ l ∧ ch = d.toUpper := by
  induction l generalizing b with
  | nil => rw [capWords] at h; simp at h
  | cons c t ih =>
    rw [capWords] at h
    rcases List.mem_cons.mp h with heq | hmem
    · by_cases hcond : (!b && isWordChar c) = true
      · rw [if_pos hcond] at heq
        exact Or.inr ⟨c, List.mem_cons_self _ _, heq⟩
      · rw [if_neg hcond] at heq
        exact Or.inl (heq ▸ List.mem_cons_self _ _)
    · rcases ih hmem with h1 | ⟨d, hd, hdu⟩
      · exact Or.inl (List.mem_cons_of_mem _ h1)
      · exact Or.inr ⟨d, List.mem_cons_of_mem _ hd, hdu⟩

theorem dash_not_mem_mkTitle (path : Str) : '-' ∉ mkTitle path := by
  intro h
  have hmap : ∀ x ∈ path.map (fun ch => if ch = '-' || ch = '_' then ' ' else ch), x ≠ '-' := by
    intro x hx
    obtain ⟨y, _, hfy⟩ := List.mem_map.mp hx
    by_cases hyd : (y = '-' || y = '_') = true
    · rw [if_pos hyd] at hfy
      rw [← hfy]
      decide
    · rw [if_neg hyd] at hfy
      rw [← hfy]
      intro hcontra
      rw [hcontra] at hyd
      simp at hyd
  rcases capWords_mem h with h1 | ⟨d, hd, hdu⟩
  · exact hmap '-' h1 rfl
  · exact toUpper_ne_dash (hmap d hd) hdu.symm

theorem marker_free_of_no_dash {n h : Str} (hd : '-' ∈ n) (hh : '-' ∉ h) :
    ∀ i, ¬ occursAt n h i :=
  fun _ hocc => hh (occursAt_mem hocc hd)

theorem header_no_dash (path : Str) : '-' ∉ "# Index of ".toList ++ mkTitle path := by
  intro h
  rcases List.mem_append.mp h with h1 | h2
  · exact absurd h1 (by decide)
  · exact dash_not_mem_mkTitle path h2

/-! ## The three branches of updateContent -/

theorem updateContent_replace {content region path : Str} {iS iE : Nat}
    (hS : firstOccur START_MARKER content = some iS)
    (hE : firstOccur END_MARKER content = some iE) :
    updateContent (some content) region path =
      content.take iS ++ fullNewContent region ++ content.drop (iE + END_MARKER.length) := by
  simp only [updateContent]
  rw [hS, hE]

theorem updateContent_append {content region path : Str}
    (h : firstOccur START_MARKER content = none ∨ firstOccur END_MARKER content = none) :
    updateContent (some content) region path = jsTrim content ++ NL2 ++ fullNewContent region := by
  simp only [updateContent]
  rcases h with h | h
  · rw [h]
  · cases hS : firstOccur START_MARKER content
    · rfl
    · rw [h]

theorem updateContent_create (region path : Str) :
    updateContent none region path =
      ("# Index of ".toList ++ mkTitle path) ++ '\n' :: '\n' :: fullNewContent region := by
  simp only [updateContent]
  simp [NL2, List.append_assoc]

/-! ## Re-running the synchronizer on its own output -/

theorem second_run_replace {before r after path : Str}
    (hsb : ∀ i, ¬ occursAt START_MARKER before i)
    (heb : ∀ i, ¬ occursAt END_MARKER before i)
    (hre : ∀ i, ¬ occursAt END_MARKER r i) :
    updateContent (some (before ++ (fullNewContent r ++ after))) r path =
      before ++ (fullNewContent r ++ after) := by
  rw [updateContent_replace (firstOccur_smark_block hsb) (firstOccur_emark_block heb hre)]
  have htake : (before ++ (fullNewContent r ++ after)).take before.length = before :=
    List.take_left before _
  have hdrop : (before ++ (fullNewContent r ++ after)).drop
      (before.length + (r.length + 30) + END_MARKER.length) = after := by
    rw [emark_length]
    rw [show before ++ (fullNewContent r ++ after) = (before ++ fullNewContent r) ++ after from
      by rw [List.append_assoc]]
    rw [show before.length + (r.length + 30) + 24 = (before ++ fullNewContent r).length from
      by rw [List.length_append, full_length]; omega]
    exact List.drop_left _ _
  rw [htake, hdrop, List.append_assoc]

theorem second_run_nl_block {t r path : Str}
    (hst : ∀ i, ¬ occursAt START_MARKER t i)
    (het : ∀ i, ¬ occursAt END_MARKER t i)
    (hre : ∀ i, ¬ occursAt END_MARKER r i) :
    updateContent (some (t ++ '\n' :: '\n' :: fullNewContent r)) r path =
      t ++ '\n' :: '\n' :: fullNewContent r := by
  rw [updateContent_replace (firstOccur_smark_nl_block hst) (firstOccur_emark_nl_block het hre)]
  have hshape : t ++ '\n' :: '\n' :: fullNewContent r = (t ++ NL2) ++ fullNewContent r := by
    rw [List.append_assoc]
    rfl
  have hlen : (t ++ NL2).length = t.length + 2 := by
    rw [List.length_append]
    rfl
  have htake : (t ++ '\n' :: '\n' :: fullNewContent r).take (t.length + 2) = t ++ NL2 := by
    rw [hshape, ← hlen]
    exact List.take_left _ _
  have hdrop : (t ++ '\n' :: '\n' :: fullNewContent r).drop
      (t.length + (2 + (r.length + 30)) + END_MARKER.length) = [] := by
    rw [emark_length, hshape]
    apply List.drop_eq_nil_of_le
    rw [List.length_append, hlen, full_length]
    omega
  rw [htake, hdrop, List.append_nil, hshape]

/-! ## Well-formed initial index files -/

/-- Initial index-file states for which re-synchronization is drift-free:
the file is absent, contains neither marker, or contains both markers with
the first start-marker occurrence no later than the first end-marker
occurrence. -/
def GoodInitial (existing : Option Str) : Prop :=
  match existing with
  | none => True
  | some c =>
    (firstOccur START_MARKER c = none ∧ firstOccur END_MARKER c = none) ∨
    (∃ iS iE, firstOccur START_MARKER c = some iS ∧ firstOccur END_MARKER c = some iE ∧ iS ≤ iE)

theorem updateContent_idem (existing : Option Str) (region path : Str)
    (hrE : firstOccur END_MARKER region = none)
    (hinit : GoodInitial existing) :
    updateContent (some (updateContent existing region path)) region path =
      updateContent existing region path := by
  have hre : ∀ i, ¬ occursAt END_MARKER region i := firstOccur_none hrE
  match existing with
  | none =>
    rw [updateContent_create]
    exact second_run_nl_block
      (marker_free_of_no_dash dash_mem_smark (header_no_dash path))
      (marker_free_of_no_dash dash_mem_emark (header_no_dash path))
      hre
  | some c =>
    rcases hinit with ⟨hS, hE⟩ | ⟨iS, iE, hS, hE, hle⟩
    · rw [updateContent_append (Or.inl hS)]
      rw [show jsTrim c ++ NL2 ++ fullNewContent region =
        jsTrim c ++ '\n' :: '\n' :: fullNewContent region from by rw [List.append_assoc]; rfl]
      exact second_run_nl_block (trim_marker_free hS) (trim_marker_free hE) hre
    · rw [updateContent_replace hS hE]
      rw [List.append_assoc]
      exact second_run_replace (take_smark_free hS) (take_emark_free hE hle) hre

/-! ## Example inputs used by witnesses and counterexamples -/

/-- The source's rendered region for an empty document set
(`"No documents found for this type."`). -/
def exRegion : Str := "No documents found for this type.".toList

/-- A concrete document-type path. -/
def exPath : Str := "adr".toList

/-- A marker-free initial index file. -/
def exInitial : Str := "# My Index\n".toList

/-- An index file with both markers around an old region. -/
def exMarked : Str :=
  "before\n".toList ++ START_MARKER ++ "\nOLD\n".toList ++ END_MARKER ++ "\nafter".toList

/-! ## Claim C1 -/

/-- Claim C1: for an existing index file containing both markers, the
synchronizer writes back exactly the text preceding the first occurrence of
the start marker, then the markers enclosing the freshly rendered region,
then the text following the first occurrence of the end marker; the
surrounding portions are taken byte-for-byte from the original content. -/
theorem c1_marker_replacement (content region path : Str) (iS iE : Nat)
    (hS : occursAt START_MARKER content iS)
    (hSmin : ∀ j, j < iS → ¬ occursAt START_MARKER content j)
    (hE : occursAt END_MARKER content iE)
    (hEmin : ∀ j, j < iE → ¬ occursAt END_MARKER content j) :
    updateContent (some content) region path =
      content.take iS ++ fullNewContent region ++ content.drop (iE + END_MARKER.length) :=
  updateContent_replace (firstOccur_eq_some hS hSmin) (firstOccur_eq_some hE hEmin)

/-- Witness for C1 at a concrete marked file: the start marker first occurs
at 7, the end marker at 38, and the rewrite keeps `"before\n"` and
`"\nafter"` byte-identical around the new block. -/
theorem c1_marker_replacement_witness :
    occursAt START_MARKER exMarked 7 ∧ occursAt END_MARKER exMarked 38 ∧
    updateContent (some exMarked) exRegion exPath =
      exMarked.take 7 ++ fullNewContent exRegion ++ exMarked.drop (38 + END_MARKER.length) :=
  ⟨by decide, by decide,
    c1_marker_replacement exMarked exRegion exPath 7 38 (by decide) (by decide) (by decide)
      (by decide)⟩

/-! ## Claim C2 -/

/-- Claim C2 (amended): re-running the Index Synchronizer with an unchanged
document set (hence an unchanged rendered region) is drift-free provided
the rendered region contains no end-marker occurrence and the initial file
state is well-formed (`GoodInitial`): absent, marker-free, or first start
marker no later than first end marker.  The unrestricted claim is refuted
by `c2_counterexample`. -/
theorem c2_index_sync_idempotent (existing : Option Str) (region path : Str)
    (hrE : firstOccur END_MARKER region = none) (hinit : GoodInitial existing) :
    updateContent (some (updateContent existing region path)) region path =
      updateContent existing region path :=
  updateContent_idem existing region path hrE hinit

/-- Witness for C2: a marker-free initial file, the empty-set region, and a
second run that reproduces the first run's output byte for byte. -/
theorem c2_index_sync_idempotent_witness :
    firstOccur END_MARKER exRegion = none ∧ GoodInitial (some exInitial) ∧
    updateContent (some (updateContent (some exInitial) exRegion exPath)) exRegion exPath =
      updateContent (some exInitial) exRegion exPath :=
  ⟨by decide, Or.inl ⟨by decide, by decide⟩,
    c2_index_sync_idempotent (some exInitial) exRegion exPath (by decide)
      (Or.inl ⟨by decide, by decide⟩)⟩

set_option maxRecDepth 40000 in
/-- Counterexample to C2 as stated: an existing index file whose content is
exactly the end marker (a "present without marker pair" state, handled by
the append branch).  The first run appends a fresh block after the stray
end marker; the second run then matches the stray end marker as the first
end-marker occurrence and duplicates the block: the two outputs differ. -/
theorem c2_counterexample :
    updateContent (some (updateContent (some END_MARKER) exRegion exPath)) exRegion exPath ≠
      updateContent (some END_MARKER) exRegion exPath := by decide

/-! ## Claim C8 -/

/-- Claim C8 (amended): for an existing file without the marker pair, the
synchronizer appends the marker-wrapped rendered region after the
*trimmed* existing content, separated by one blank line; the trimmed
content is a contiguous byte-for-byte portion of the original.  The
original claim's "existing content is not rewritten" is refuted by
`c8_counterexample` (leading/trailing whitespace is stripped). -/
theorem c8_append_trimmed (content region path : Str)
    (h : firstOccur START_MARKER content = none ∨ firstOccur END_MARKER content = none) :
    updateContent (some content) region path = jsTrim content ++ NL2 ++ fullNewContent region ∧
    ∃ u v, content = u ++ jsTrim content ++ v :=
  ⟨updateContent_append h, jsTrim_infix content⟩

/-- Witness for C8 at a concrete marker-free file. -/
theorem c8_append_trimmed_witness :
    firstOccur START_MARKER exInitial = none ∧
    (updateContent (some exInitial) exRegion exPath =
      jsTrim exInitial ++ NL2 ++ fullNewContent exRegion ∧
     ∃ u v, exInitial = u ++ jsTrim exInitial ++ v) :=
  ⟨by decide, c8_append_trimmed exInitial exRegion exPath (Or.inl (by decide))⟩

set_option maxRecDepth 40000 in
/-- Counterexample to C8 as stated: for the existing content `" x"` (one
leading space), the appended output does not contain the original content
unchanged — `trim()` stripped the space before appending. -/
theorem c8_counterexample :
    ¬ " x".toList <:+: updateContent (some " x".toList) exRegion exPath := by decide

/-! ## JS values

Front-matter metadata values as parsed from YAML: null, booleans, numbers
(integers — the ids, estimates and versions this tool manages), strings and
arrays.  A missing key is `Option.none` (JS `undefined`), distinct from an
explicit `null`. -/

inductive JsValue where
  | nullV : JsValue
  | boolV : Bool → JsValue
  | numV : Int → JsValue
  | strV : Str → JsValue
  | arrV : List JsValue → JsValue

mutual

def jsValueDecEq : (a b : JsValue) → Decidable (a = b)
  | .nullV, .nullV => isTrue rfl
  | .boolV a, .boolV b =>
    match decEq a b with
    | isTrue h => isTrue (by rw [h])
    | isFalse h => isFalse (by intro hc; injection hc; contradiction)
  | .numV a, .numV b =>
    match decEq a b with
    | isTrue h => isTrue (by rw [h])
    | isFalse h => isFalse (by intro hc; injection hc; contradiction)
  | .strV a, .strV b =>
    match decEq a b with
    | isTrue h => isTrue (by rw [h])
    | isFalse h => isFalse (by intro hc; injection hc; contradiction)
  | .arrV a, .arrV b =>
    match jsValueListDecEq a b with
    | isTrue h => isTrue (by rw [h])
    | isFalse h => isFalse (by intro hc; injection hc; contradiction)
  | .nullV, .boolV _ => isFalse (by intro hc; exact JsValue.noConfusion hc)
  | .nullV, .numV _ => isFalse (by intro hc; exact JsValue.noConfusion hc)
  | .nullV, .strV _ => isFalse (by intro hc; exact JsValue.noConfusion hc)
  | .nullV, .arrV _ => isFalse (by intro hc; exact JsValue.noConfusion hc)
  | .boolV _, .nullV => isFalse (by intro hc; exact JsValue.noConfusion hc)
  | .boolV _, .numV _ => isFalse (by intro hc; exact JsValue.noConfusion hc)
  | .boolV _, .strV _ => isFalse (by intro hc; exact JsValue.noConfusion hc)
  | .boolV _, .arrV _ => isFalse (by intro hc; exact JsValue.noConfusion hc)
  | .numV _, .nullV => isFalse (by intro hc; exact JsValue.noConfusion hc)
  | .numV _, .boolV _ => isFalse (by intro hc; exact JsValue.noConfusion hc)
  | .numV _, .strV _ => isFalse (by intro hc; exact JsValue.noConfusion hc)
  | .numV _, .arrV _ => isFalse (by intro hc; exact JsValue.noConfusion hc)
  | .strV _, .nullV => isFalse (by intro hc; exact JsValue.noConfusion hc)
  | .strV _, .boolV _ => isFalse (by intro hc; exact JsValue.noConfusion hc)
  | .strV _, .numV _ => isFalse (by intro hc; exact JsValue.noConfusion hc)
  | .strV _, .arrV _ => isFalse (by intro hc; exact JsValue.noConfusion hc)
  | .arrV _, .nullV => isFalse (by intro hc; exact JsValue.noConfusion hc)
  | .arrV _, .boolV _ => isFalse (by intro hc; exact JsValue.noConfusion hc)
  | .arrV _, .numV _ => isFalse (by intro hc; exact JsValue.noConfusion hc)
  | .arrV _, .strV _ => isFalse (by intro hc; exact JsValue.noConfusion hc)

def jsValueListDecEq : (a b : List JsValue) → Decidable (a = b)
  | [], [] => isTrue rfl
  | [], _ :: _ => isFalse (by intro hc; exact List.noConfusion hc)
  | _ :: _, [] => isFalse (by intro hc; exact List.noConfusion hc)
  | x :: xs, y :: ys =>
    match jsValueDecEq x y with
    | isFalse h => isFalse (by intro hc; injection hc; contradiction)
    | isTrue h1 =>
      match jsValueListDecEq xs ys with
      | isTrue h2 => isTrue (by rw [h1, h2])
      | isFalse h => isFalse (by intro hc; injection hc; contradiction)

end

instance : DecidableEq JsValue := jsValueDecEq

/-- Association-list lookup (JS object property access, first binding wins). -/
def alookup {α : Type} : List (Str × α) → Str → Option α
  | [], _ => none
  | (k', v) :: t, k => if k' = k then some v else alookup t k

/-- JS truthiness of a possibly-missing value (`undefined`, `null`, `false`,
`0`, `""` are falsy; everything else, including any array, is truthy). -/
def truthy : Option JsValue → Bool
  | none => false
  | some .nullV => false
  | some (.boolV b) => b
  | some (.numV n) => n ≠ 0
  | some (.strV s) => !s.isEmpty
  | some (.arrV _) => true

/-! ## JS primitive coercion and the relational operator -/

mutual

/-- An array element under `Array.prototype.join` / `toString`: `null`
renders empty, other values via `String(·)`. -/
def elemToStr : JsValue → Str
  | .nullV => []
  | .boolV true => "true".toList
  | .boolV false => "false".toList
  | .numV n => (Int.repr n).toList
  | .strV s => s
  | .arrV l => joinComma l

/-- `Array.prototype.toString`: elements joined with commas. -/
def joinComma : List JsValue → Str
  | [] => []
  | [x] => elemToStr x
  | x :: y :: xs => elemToStr x ++ ',' :: joinComma (y :: xs)

end

/-- JS primitive values, the result of `ToPrimitive`. -/
inductive Prim where
  | pUndef : Prim
  | pNull : Prim
  | pBool : Bool → Prim
  | pNum : Int → Prim
  | pStr : Str → Prim

/-- `ToPrimitive` of a possibly-missing metadata value: arrays convert to
their join string, everything else is already primitive. -/
def primOfOpt : Option JsValue → Prim
  | none => .pUndef
  | some .nullV => .pNull
  | some (.boolV b) => .pBool b
  | some (.numV n) => .pNum n
  | some (.strV s) => .pStr s
  | some (.arrV l) => .pStr (joinComma l)

/-- `Number(string)` restricted to optionally-signed decimal integer
literals (the id strings this tool manages): whitespace-trimmed, empty
means `0`, anything non-numeric is `NaN` (`none`). -/
def strToNumber (s : Str) : Option Int :=
  let t := jsTrim s
  let digits : Str → Option Int := fun l =>
    if l.isEmpty then none
    else if l.all Char.isDigit then
      some (l.foldl (fun acc ch => acc * 10 + ((ch.toNat : Int) - 48)) 0)
    else none
  match t with
  | [] => some 0
  | '-' :: rest => (digits rest).map (fun n => -n)
  | '+' :: rest => digits rest
  | _ => digits t

/-- `ToNumber` on primitives; `none` is `NaN`. -/
def primToNumber : Prim → Option Int
  | .pUndef => none
  | .pNull => some 0
  | .pBool b => some (if b then 1 else 0)
  | .pNum n => some n
  | .pStr s => strToNumber s

/-- Lexicographic string comparison by code unit (JS `>` on two strings). -/
def lexGt : Str → Str → Bool
  | [], _ => false
  | _ :: _, [] => true
  | a :: as, b :: bs => if a < b then false else if b < a then true else lexGt as bs

/-- Numeric comparison where `none` is `NaN` (all comparisons false). -/
def numGt : Option Int → Option Int → Bool
  | some a, some b => decide (b < a)
  | some _, none => false
  | none, some _ => false
  | none, none => false

/-- JS abstract relational comparison on primitives: string comparison when
both sides are strings, numeric comparison otherwise. -/
def primGt (px py : Prim) : Bool :=
  match px, py with
  | .pStr a, .pStr b => lexGt a b
  | _, _ => numGt (primToNumber px) (primToNumber py)

/-- JS `x > y` on two possibly-missing metadata values. -/
def jsGt (x y : Option JsValue) : Bool := primGt (primOfOpt x) (primOfOpt y)

theorem lexGt_asymm : ∀ {a b : Str}, lexGt a b = true → lexGt b a = false := by
  intro a
  induction a with
  | nil => intro b h; rw [lexGt] at h; exact absurd h (by simp)
  | cons x xs ih =>
    intro b h
    cases b with
    | nil => rfl
    | cons y ys =>
      rw [lexGt] at h ⊢
      by_cases hxy : x < y
      · rw [if_pos hxy] at h
        exact absurd h (by simp)
      · rw [if_neg hxy] at h
        by_cases hyx : y < x
        · rw [if_pos hyx]
        · rw [if_neg hyx] at h
          rw [if_neg hyx, if_neg hxy]
          exact ih h

theorem numGt_asymm : ∀ {x y : Option Int}, numGt x y = true → numGt y x = false := by
  intro x y h
  match x, y with
  | some a, some b =>
    simp only [numGt, decide_eq_true_eq] at h
    simp only [numGt, decide_eq_false_iff_not]
    omega
  | none, none => simp [numGt] at h
  | none, some _ => simp [numGt] at h
  | some _, none => simp [numGt] at h

theorem primGt_asymm : ∀ {px py : Prim}, primGt px py = true → primGt py px = false := by
  intro px py h
  cases px <;> cases py <;>
    simp only [primGt] at h ⊢ <;>
    first
      | exact lexGt_asymm h
      | exact numGt_asymm h

theorem jsGt_asymm {x y : Option JsValue} (h : jsGt x y = true) : jsGt y x = false :=
  primGt_asymm h

/-! ## The indexing sort (src/utils/indexing.ts, step 2)

`updateIndexFile` sorts the listed documents only when
`documents.every((d) => d.frontmatter.id)` holds — a JS *truthiness* test —
using the comparator `(a, b) => (a.frontmatter.id > b.frontmatter.id ? 1 : -1)`.
The tie order of `Array.prototype.sort` under a comparator that never
returns `0` is implementation-defined; the model fixes insertion sort,
which realizes the same comparator decisions. -/

/-- A document as gathered by `updateIndexFile`: filename plus parsed
front matter. -/
structure DocumentIndexInfo where
  filename : Str
  frontmatter : List (Str × JsValue)
deriving DecidableEq

/-- The document's `frontmatter.id`. -/
def fmId (d : DocumentIndexInfo) : Option JsValue := alookup d.frontmatter "id".toList

/-- The source comparator decision: `a.frontmatter.id > b.frontmatter.id`. -/
def idGt (a b : DocumentIndexInfo) : Bool := jsGt (fmId a) (fmId b)

/-- One step of the sort: place `d` after every element it compares
greater than. -/
def insertById (d : DocumentIndexInfo) : List DocumentIndexInfo → List DocumentIndexInfo
  | [] => [d]
  | e :: es => if idGt d e then e :: insertById d es else d :: e :: es

/-- Sorting by the source comparator. -/
def sortById : List DocumentIndexInfo → List DocumentIndexInfo
  | [] => []
  | d :: t => insertById d (sortById t)

/-- Step 2 of `updateIndexFile`: sort if and only if every document's
`frontmatter.id` is truthy. -/
def sortDocuments (docs : List DocumentIndexInfo) : List DocumentIndexInfo :=
  if docs.all (fun d => truthy (fmId d)) then sortById docs else docs

theorem idGt_asymm {a b : DocumentIndexInfo} (h : idGt a b = true) : idGt b a = false :=
  jsGt_asymm h

theorem insertById_head (d : DocumentIndexInfo) (l : List DocumentIndexInfo) :
    (insertById d l).head? = some d ∨ (insertById d l).head? = l.head? := by
  cases l with
  | nil => left; rfl
  | cons e es =>
    rw [insertById]
    by_cases h : idGt d e = true
    · rw [if_pos h]; right; rfl
    · rw [if_neg h]; left; rfl

theorem insertById_chain (d : DocumentIndexInfo) :
    ∀ l, List.Chain' (fun a b => idGt a b = false) l →
      List.Chain' (fun a b => idGt a b = false) (insertById d l) := by
  intro l
  induction l with
  | nil => intro; simp [insertById]
  | cons e es ih =>
    intro hl
    obtain ⟨hhead, htail⟩ := List.chain'_cons'.mp hl
    rw [insertById]
    by_cases h : idGt d e = true
    · rw [if_pos h]
      apply List.chain'_cons'.mpr
      refine ⟨?_, ih htail⟩
      intro x hx
      rcases insertById_head d es with hh | hh
      · rw [hh] at hx
        injection hx with hx
        rw [← hx]
        exact idGt_asymm h
      · rw [hh] at hx
        exact hhead x hx
    · rw [if_neg h]
      apply List.chain'_cons.mpr
      exact ⟨Bool.not_eq_true _ ▸ h, hl⟩

theorem sortById_chain (l : List DocumentIndexInfo) :
    List.Chain' (fun a b => idGt a b = false) (sortById l) := by
  induction l with
  | nil => simp [sortById]
  | cons d t ih => exact insertById_chain d _ ih

theorem insertById_perm (d : DocumentIndexInfo) :
    ∀ l, List.Perm (insertById d l) (d :: l) := by
  intro l
  induction l with
  | nil => exact List.Perm.refl _
  | cons e es ih =>
    rw [insertById]
    by_cases h : idGt d e = true
    · rw [if_pos h]
      exact (ih.cons e).trans (List.Perm.swap d e es)
    · rw [if_neg h]

theorem sortById_perm (l : List DocumentIndexInfo) : List.Perm (sortById l) l := by
  induction l with
  | nil => exact List.Perm.refl _
  | cons d t ih => exact (insertById_perm d (sortById t)).trans (ih.cons d)

/-! ## Claim C7 -/

/-- Claim C7 (amended): when indexing a type, if every listed document's
`id` metadata value is *truthy*, the documents are permuted into an order
that ascends pairwise under the source comparator (`a.id > b.id` fails for
each adjacent pair); if any document's `id` is missing or falsy (including
the non-null falsy values `0`, `""`, `false`), the listing order is kept
unchanged — a partial or mixed sort never occurs.  The original claim's
"non-null" condition is refuted by `c7_counterexample` (`id: 0` is
non-null but falsy). -/
theorem c7_sort_by_truthy_ids (docs : List DocumentIndexInfo) :
    ((∀ d ∈ docs, truthy (fmId d) = true) →
      List.Chain' (fun a b => idGt a b = false) (sortDocuments docs) ∧
      List.Perm (sortDocuments docs) docs) ∧
    ((∃ d ∈ docs, truthy (fmId d) = false) → sortDocuments docs = docs) := by
  constructor
  · intro hall
    have hcond : docs.all (fun d => truthy (fmId d)) = true := by
      rw [List.all_eq_true]
      exact hall
    rw [sortDocuments, if_pos hcond]
    exact ⟨sortById_chain docs, sortById_perm docs⟩
  · intro ⟨d, hd, hfd⟩
    have hcond : docs.all (fun d => truthy (fmId d)) ≠ true := by
      intro hcontra
      rw [List.all_eq_true] at hcontra
      rw [hcontra d hd] at hfd
      simp at hfd
    rw [sortDocuments, if_neg hcond]

/-- A document with id 5 listed before a document with id 0. -/
def exDoc5 : DocumentIndexInfo := ⟨"a.md".toList, [("id".toList, .numV 5)]⟩

/-- A document with the non-null but falsy id 0. -/
def exDoc0 : DocumentIndexInfo := ⟨"b.md".toList, [("id".toList, .numV 0)]⟩

/-- Documents with truthy ids 2 and 1, listed out of order. -/
def exDoc2 : DocumentIndexInfo := ⟨"c.md".toList, [("id".toList, .numV 2)]⟩

/-- A fourth document, with id 1. -/
def exDoc1 : DocumentIndexInfo := ⟨"d.md".toList, [("id".toList, .numV 1)]⟩

/-- Witness for C7: ids 2 and 1 (all truthy) get sorted ascending; a set
containing the falsy id 0 is left in listing order. -/
theorem c7_sort_by_truthy_ids_witness :
    (List.Chain' (fun a b => idGt a b = false) (sortDocuments [exDoc2, exDoc1]) ∧
      List.Perm (sortDocuments [exDoc2, exDoc1]) [exDoc2, exDoc1]) ∧
    sortDocuments [exDoc5, exDoc0] = [exDoc5, exDoc0] :=
  ⟨(c7_sort_by_truthy_ids [exDoc2, exDoc1]).1 (by decide),
   (c7_sort_by_truthy_ids [exDoc5, exDoc0]).2 ⟨exDoc0, by decide, by decide⟩⟩

/-- Counterexample to C7 as stated: both documents carry non-null ids
(5 and 0), yet the output is not ascending by id — the code's condition is
truthiness, and `0` is falsy, so no sort happens at all. -/
theorem c7_counterexample :
    (∀ d ∈ [exDoc5, exDoc0], fmId d ≠ none ∧ fmId d ≠ some JsValue.nullV) ∧
    ¬ List.Chain' (fun a b => idGt a b = false) (sortDocuments [exDoc5, exDoc0]) := by
  constructor
  · decide
  · intro h
    have heq : sortDocuments [exDoc5, exDoc0] = [exDoc5, exDoc0] := by decide
    rw [heq] at h
    have h1 := (List.chain'_cons.mp h).1
    revert h1
    decide

/-! ## The validate command: schema model (src/types/folio.ts) -/

/-- The `type` discriminant of a front matter field. -/
inductive BaseType where
  | bstring : BaseType
  | bnumber : BaseType
  | bboolean : BaseType
  | bdate : BaseType
deriving DecidableEq

/-- An allowed literal in a field's `enum` (`string | number`). -/
inductive EnumVal where
  | eStr : Str → EnumVal
  | eNum : Int → EnumVal
deriving DecidableEq

/-- A field's `default`: a literal value or a zero-argument generator
(`any | (() => any)`). -/
inductive DefaultVal where
  | lit : JsValue → DefaultVal
  | gen : (Unit → JsValue) → DefaultVal

/-- A `FrontmatterField` from folio.config.ts.  `pattern` is the RegExp's
`test` predicate. -/
structure FrontmatterField where
  type : BaseType
  required : Bool := false
  unique : Bool := false
  isArray : Bool := false
  default : Option DefaultVal := none
  enum : Option (List EnumVal) := none
  pattern : Option (Str → Bool) := none
  minLength : Option Nat := none
  minimum : Option Int := none

instance : Inhabited FrontmatterField := ⟨{ type := .bstring }⟩

instance : Inhabited JsValue := ⟨.nullV⟩

/-- A field name. -/
abbrev FieldName := Str

/-- A `FrontmatterSchema`: field name → field definition, in declaration
order (JS object insertion order). -/
abbrev FrontmatterSchema := List (FieldName × FrontmatterField)

/-- Generic association-list lookup keyed by any decidable type (JS object
property access and `Map.prototype.get`). -/
def klookup {κ α : Type} [DecidableEq κ] : List (κ × α) → κ → Option α
  | [], _ => none
  | (k', v) :: t, k => if k' = k then some v else klookup t k

/-! ## buildZodSchema: the compiled per-field validator

The code builds, in order: the base-type validator with its constraint
refinements, then — when `field.enum` is set and `String(field.enum[0])`
is truthy — *replaces* it wholesale by `z.enum(field.enum.map(String))`,
then wraps with `z.array` when `isArray`, then `.optional()` when not
`required`.  `field.default` is never consulted. -/

/-- The date regex `/^\d{4}-\d{2}-\d{2}$/` from the `date` case. -/
def dateFmt : Str → Bool
  | [a, b, c, d, '-', e, f, '-', g, h] =>
    a.isDigit && b.isDigit && c.isDigit && d.isDigit &&
    e.isDigit && f.isDigit && g.isDigit && h.isDigit
  | _ => false

/-- The base-type validator with its refinements (`z.string().min().regex()`,
`z.number().min()`, `z.boolean()`, date string check).  `minLength` is
applied under `if (field.minLength)` — a truthiness test, so `0` is
skipped; `minimum` under `if (field.minimum !== undefined)`. -/
def baseCheck (f : FrontmatterField) (v : JsValue) : Bool :=
  match f.type with
  | .bstring =>
    match v with
    | .strV s =>
      (match f.minLength with
       | some n => if n ≠ 0 then decide (n ≤ s.length) else true
       | none => true) &&
      (match f.pattern with
       | some p => p s
       | none => true)
    | _ => false
  | .bnumber =>
    match v with
    | .numV n =>
      match f.minimum with
      | some m => decide (m ≤ n)
      | none => true
    | _ => false
  | .bboolean =>
    match v with
    | .boolV _ => true
    | _ => false
  | .bdate =>
    match v with
    | .strV s => dateFmt s
    | _ => false

/-- `String(enumValue)`. -/
def enumToStr : EnumVal → Str
  | .eStr s => s
  | .eNum n => (Int.repr n).toList

/-- The `z.enum` replacement list, when it is installed:
`const [first, ...rest] = field.enum.map(String); if (first) ...` — the
replacement happens only when the first mapped literal is a truthy
(nonempty) string. -/
def effectiveEnum (f : FrontmatterField) : Option (List Str) :=
  match f.enum with
  | none => none
  | some l =>
    match l.map enumToStr with
    | [] => none
    | first :: rest => if first.isEmpty then none else some (first :: rest)

/-- The per-element validator after the enum step: `z.enum(strings)`
accepts exactly the listed strings; otherwise the base validator applies. -/
def elemCheck (f : FrontmatterField) (v : JsValue) : Bool :=
  match effectiveEnum f with
  | some es =>
    match v with
    | .strV s => decide (s ∈ es)
    | _ => false
  | none => baseCheck f v

/-- The validator after the `isArray` step: `z.array(validator)` requires
an array whose every element passes. -/
def arrayCheck (f : FrontmatterField) (v : JsValue) : Bool :=
  if f.isArray then
    match v with
    | .arrV l => l.all (elemCheck f)
    | _ => false
  else elemCheck f v

/-- The complete compiled field validator applied to the field's value in
a document (`none` = key absent): `.optional()` admits a missing value for
non-required fields; a missing required field is a `Required` issue; an
explicit `null` is never admitted by these validators. -/
def validateField (f : FrontmatterField) (v? : Option JsValue) : Bool :=
  match v? with
  | none => !f.required
  | some v => arrayCheck f v

/-- A zod issue as reported per document. -/
inductive Issue where
  | fieldIssue : FieldName → Issue
  | unknownKeys : List FieldName → Issue
deriving DecidableEq

/-- `schema.safeParse(data)` for the strict object schema built by
`buildZodSchema`: one issue per failing declared field (fail-soft — all
fields are checked), plus one `unrecognized_keys` issue listing every
metadata key absent from the schema (`.strict()`).  An empty issue list is
`success`; on success `result.data` carries the same key/value bindings as
the input.  `unknownKeysOf` lists the metadata keys absent from the
schema. -/
def unknownKeysOf (schema : FrontmatterSchema) (data : List (FieldName × JsValue)) :
    List FieldName :=
  (data.filter (fun kv => (klookup schema kv.1).isNone)).map Prod.fst

/-- The declared-field issues of a parse (the shape part of the strict
object schema). -/
def fieldIssuesOf (schema : FrontmatterSchema) (data : List (FieldName × JsValue)) :
    List Issue :=
  schema.filterMap (fun fp =>
    if validateField fp.2 (klookup data fp.1) then none else some (Issue.fieldIssue fp.1))

def safeParse (schema : FrontmatterSchema) (data : List (FieldName × JsValue)) : List Issue :=
  fieldIssuesOf schema data ++
    (if (unknownKeysOf schema data).isEmpty then [] else [Issue.unknownKeys (unknownKeysOf schema data)])

/-! ## validateDocType: per-document validation plus uniqueness -/

/-- A document as read by `validateDocType`: filename and parsed front
matter. -/
structure ValDoc where
  filename : Str
  metadata : List (FieldName × JsValue)
deriving DecidableEq

/-- A key of a uniqueness `Map`.  JS `Map` compares keys with
SameValueZero: primitives by value, objects — including the fresh array a
parse produces for an `isArray` field — by reference.  A parsed array's
identity is represented by the position of its document in processing
order, which is unique per parse. -/
inductive UKey where
  | prim : JsValue → UKey
  | ref : Nat → UKey
deriving DecidableEq

/-- The `Map` key under which `result.data[fieldName]` of document number
`docIdx` is stored or looked up. -/
def keyOf (docIdx : Nat) (v : JsValue) : UKey :=
  match v with
  | .arrV _ => .ref docIdx
  | _ => .prim v

/-- An error pushed by `validateDocType`. -/
inductive RunError where
  | invalid : Str → List Issue → RunError
  | dup : FieldName → Str → Str → RunError
deriving DecidableEq

/-- The evolving state of one `validateDocType` run: the collected errors,
the per-unique-field value maps (value key → first filename), and an
instrumentation trace listing every interaction with a uniqueness map as
`(document index, field, key)` — the trace does not influence errors or
maps, it only makes "this value participated in uniqueness comparison"
stateable. -/
structure RunState where
  errors : List RunError
  maps : FieldName → List (UKey × Str)
  trace : List (Nat × FieldName × UKey)

/-- The state before any document is processed. -/
def initState : RunState := ⟨[], fun _ => [], []⟩

/-- The unique fields of the schema, in declaration order (the
`uniqueValueMaps` of the source). -/
def uniqueFieldsOf (schema : FrontmatterSchema) : List (FieldName × FrontmatterField) :=
  schema.filter (fun fp => fp.2.unique)

/-- The value the uniqueness loop considers for a field of a document:
`const value = result.data[fieldName]` followed by the
`value === undefined || value === null` skip (on a successful strict parse,
`result.data` carries the document's metadata bindings). -/
def pvalue (data : List (FieldName × JsValue)) (f : FieldName) : Option JsValue :=
  match klookup data f with
  | none => none
  | some .nullV => none
  | some v => some v

/-- One uniqueness-map interaction: on a hit (`valueMap.has(value)`) push
a duplicate error naming the current file and the first seen one; on a
miss record the value's key with the current file
(`valueMap.set(value, file)`). -/
def uniqueStep (idx : Nat) (file : Str) (fname : FieldName) (key : UKey) (st : RunState) :
    RunState :=
  match klookup (st.maps fname) key with
  | some first =>
    { st with errors := st.errors ++ [RunError.dup fname file first],
              trace := st.trace ++ [(idx, fname, key)] }
  | none =>
    { st with
        maps := fun f' => if f' = fname then (key, file) :: st.maps fname else st.maps f',
        trace := st.trace ++ [(idx, fname, key)] }

/-- The `for (const [fieldName, valueMap] of uniqueValueMaps)` loop for one
document that passed validation: skip `undefined`/`null` values, otherwise
interact with the field's uniqueness map. -/
def checkUniques (idx : Nat) (file : Str) (data : List (FieldName × JsValue)) :
    List (FieldName × FrontmatterField) → RunState → RunState
  | [], st => st
  | (fname, _) :: rest, st =>
    match pvalue data fname with
    | none => checkUniques idx file data rest st
    | some v => checkUniques idx file data rest (uniqueStep idx file fname (keyOf idx v) st)

/-- Processing of one document file: parse errors aside, a failed
`safeParse` records the document's issues and skips uniqueness checking;
a successful one runs the uniqueness loop over `result.data`. -/
def processDoc (schema : FrontmatterSchema) (idx : Nat) (st : RunState) (d : ValDoc) :
    RunState :=
  let issues := safeParse schema d.metadata
  if issues.isEmpty then
    checkUniques idx d.filename d.metadata (uniqueFieldsOf schema) st
  else
    { st with errors := st.errors ++ [RunError.invalid d.filename issues] }

/-- The document loop of `validateDocType`, processing documents in
directory-listing order starting at index `idx`. -/
def runFrom (schema : FrontmatterSchema) : Nat → RunState → List ValDoc → RunState
  | _, st, [] => st
  | idx, st, d :: ds => runFrom schema (idx + 1) (processDoc schema idx st d) ds

/-- `validateDocType` over the listed documents of a type. -/
def runValidate (schema : FrontmatterSchema) (docs : List ValDoc) : RunState :=
  runFrom schema 0 initState docs

/-- The value of field `f` that the uniqueness loop would consider for a
document: its metadata value unless absent or `null`. -/
def presentValue (d : ValDoc) (f : FieldName) : Option JsValue :=
  pvalue d.metadata f

/-! ## Trace characterization: what participates in uniqueness checking -/

/-- The uniqueness-map interactions one document contributes: nothing if
its parse failed; otherwise one entry per unique field whose value is
present and non-null. -/
def docTrace (schema : FrontmatterSchema) (idx : Nat) (d : ValDoc) :
    List (Nat × FieldName × UKey) :=
  if (safeParse schema d.metadata).isEmpty then
    (uniqueFieldsOf schema).filterMap (fun fp =>
      (presentValue d fp.1).map (fun v => (idx, fp.1, keyOf idx v)))
  else []

/-- The uniqueness-map interactions of a document list processed from
index `idx`. -/
def traceFrom (schema : FrontmatterSchema) : Nat → List ValDoc → List (Nat × FieldName × UKey)
  | _, [] => []
  | idx, d :: ds => docTrace schema idx d ++ traceFrom schema (idx + 1) ds

theorem uniqueStep_trace (idx : Nat) (file : Str) (fname : FieldName) (key : UKey)
    (st : RunState) :
    (uniqueStep idx file fname key st).trace = st.trace ++ [(idx, fname, key)] := by
  unfold uniqueStep
  split <;> rfl

theorem checkUniques_trace (idx : Nat) (file : Str) (data : List (FieldName × JsValue)) :
    ∀ (fields : List (FieldName × FrontmatterField)) (st : RunState),
      (checkUniques idx file data fields st).trace =
        st.trace ++ fields.filterMap (fun fp =>
          (pvalue data fp.1).map (fun v => (idx, fp.1, keyOf idx v))) := by
  intro fields
  induction fields with
  | nil => intro st; simp [checkUniques]
  | cons fp rest ih =>
    intro st
    obtain ⟨fname, fd⟩ := fp
    simp only [checkUniques]
    cases hv : pvalue data fname with
    | none =>
      rw [ih st, List.filterMap_cons]
      simp [hv]
    | some v =>
      rw [List.filterMap_cons]
      simp only [hv, Option.map_some']
      rw [ih _, uniqueStep_trace]
      simp

theorem processDoc_trace (schema : FrontmatterSchema) (idx : Nat) (st : RunState) (d : ValDoc) :
    (processDoc schema idx st d).trace = st.trace ++ docTrace schema idx d := by
  simp only [processDoc, docTrace]
  by_cases hp : (safeParse schema d.metadata).isEmpty = true
  · rw [if_pos hp, if_pos hp, checkUniques_trace]
    rfl
  · rw [if_neg hp, if_neg hp, List.append_nil]

theorem runFrom_trace (schema : FrontmatterSchema) :
    ∀ (ds : List ValDoc) (idx : Nat) (st : RunState),
      (runFrom schema idx st ds).trace = st.trace ++ traceFrom schema idx ds := by
  intro ds
  induction ds with
  | nil => intro idx st; simp [runFrom, traceFrom]
  | cons d ds ih =>
    intro idx st
    rw [runFrom, traceFrom, ih, processDoc_trace, List.append_assoc]

theorem docTrace_mem {schema : FrontmatterSchema} {idx : Nat} {d : ValDoc}
    {i : Nat} {f : FieldName} {k : UKey} :
    (i, f, k) ∈ docTrace schema idx d ↔
      (i = idx ∧ (safeParse schema d.metadata).isEmpty = true ∧
       f ∈ (uniqueFieldsOf schema).map Prod.fst ∧
       ∃ v, presentValue d f = some v ∧ k = keyOf idx v) := by
  rw [docTrace]
  by_cases hp : (safeParse schema d.metadata).isEmpty = true
  · rw [if_pos hp]
    rw [List.mem_filterMap]
    constructor
    · rintro ⟨fp, hfp, hsome⟩
      obtain ⟨v, hv, heq⟩ := Option.map_eq_some'.mp hsome
      have h1 : idx = i := congrArg (fun t => t.1) heq
      have h2 : fp.1 = f := congrArg (fun t => t.2.1) heq
      have h3 : keyOf idx v = k := congrArg (fun t => t.2.2) heq
      subst h1
      refine ⟨rfl, hp, List.mem_map.mpr ⟨fp, hfp, h2⟩, v, ?_, h3.symm⟩
      rw [← h2]
      exact hv
    · rintro ⟨rfl, _, hf, v, hv, rfl⟩
      obtain ⟨fp, hfp, hfp1⟩ := List.mem_map.mp hf
      refine ⟨fp, hfp, ?_⟩
      rw [hfp1, hv]
      rfl
  · rw [if_neg hp]
    simp [hp]

theorem traceFrom_mem {schema : FrontmatterSchema} {i : Nat} {f : FieldName} {k : UKey} :
    ∀ (ds : List ValDoc) (idx : Nat),
      ((i, f, k) ∈ traceFrom schema idx ds ↔
        ∃ m d, ds[m]? = some d ∧ i = idx + m ∧
          (safeParse schema d.metadata).isEmpty = true ∧
          f ∈ (uniqueFieldsOf schema).map Prod.fst ∧
          ∃ v, presentValue d f = some v ∧ k = keyOf i v) := by
  intro ds
  induction ds with
  | nil =>
    intro idx
    simp [traceFrom]
  | cons d ds ih =>
    intro idx
    rw [traceFrom, List.mem_append, docTrace_mem, ih (idx + 1)]
    constructor
    · rintro (⟨rfl, hp, hf, v, hv, rfl⟩ | ⟨m, d', hd', hi, rest⟩)
      · exact ⟨0, d, by simp, by omega, hp, hf, v, hv, rfl⟩
      · exact ⟨m + 1, d', by simpa using hd', by omega, rest⟩
    · rintro ⟨m, d', hd', hi, hp, hf, v, hv, hk⟩
      cases m with
      | zero =>
        left
        have hd : d' = d := by
          simp at hd'
          exact hd'.symm
        subst hd
        have hidx : i = idx := by omega
        subst hidx
        exact ⟨rfl, hp, hf, v, hv, hk⟩
      | succ m' =>
        right
        refine ⟨m', d', by simpa using hd', by omega, hp, hf, v, hv, hk⟩

/-! ## Claim C5 -/

/-- Claim C5 (amended): a unique field's value from a document enters the
cross-document uniqueness comparison (the uniqueness map is consulted or
extended with it) if and only if the *whole document* passed schema
validation and the value is present and non-null — not merely when the
value passes that one field's validation: a document failing on any other
field contributes nothing to uniqueness checking
(see `c5_counterexample`). -/
theorem c5_unique_participation_iff (schema : FrontmatterSchema) (docs : List ValDoc)
    (i : Nat) (f : FieldName) (k : UKey) :
    (i, f, k) ∈ (runValidate schema docs).trace ↔
      ∃ d, docs[i]? = some d ∧
        safeParse schema d.metadata = [] ∧
        f ∈ (uniqueFieldsOf schema).map Prod.fst ∧
        ∃ v, presentValue d f = some v ∧ k = keyOf i v := by
  rw [runValidate, runFrom_trace]
  rw [show initState.trace = [] from rfl, List.nil_append]
  rw [traceFrom_mem docs 0]
  constructor
  · rintro ⟨m, d, hd, hi, hp, hf, v, hv, hk⟩
    have him : i = m := by omega
    subst him
    rw [List.isEmpty_iff] at hp
    exact ⟨d, hd, hp, hf, v, hv, hk⟩
  · rintro ⟨d, hd, hp, hf, v, hv, hk⟩
    refine ⟨i, d, hd, by omega, ?_, hf, v, hv, hk⟩
    rw [List.isEmpty_iff]
    exact hp

/-- A required unique string `id`. -/
def exIdField : FrontmatterField := { type := .bstring, required := true, unique := true }

/-- A required string `status`. -/
def exStatusField : FrontmatterField := { type := .bstring, required := true }

/-- A schema with the unique `id` and the plain `status`. -/
def exSchema5 : FrontmatterSchema :=
  [("id".toList, exIdField), ("status".toList, exStatusField)]

/-- A document whose `id` is valid but whose `status` is a number. -/
def exDoc5a : ValDoc :=
  ⟨"one.md".toList, [("id".toList, .strV "X".toList), ("status".toList, .numV 5)]⟩

/-- A fully valid document repeating the same `id`. -/
def exDoc5b : ValDoc :=
  ⟨"two.md".toList, [("id".toList, .strV "X".toList), ("status".toList, .strV "ok".toList)]⟩

/-- Counterexample to C5 as stated: the first document's `id` value passes
that field's validation, and the second document repeats it — yet no
`DuplicateUnique` is reported and the first document's value never touches
the uniqueness map (the trace records only the second document), because
the first document failed validation on `status`.  Participation is
per-document, not per-field. -/
theorem c5_counterexample :
    validateField exIdField (some (JsValue.strV "X".toList)) = true ∧
    (runValidate exSchema5 [exDoc5a, exDoc5b]).trace =
      [(1, "id".toList, UKey.prim (JsValue.strV "X".toList))] ∧
    (runValidate exSchema5 [exDoc5a, exDoc5b]).errors =
      [RunError.invalid "one.md".toList [Issue.fieldIssue "status".toList]] := by decide

/-! ## Claim C4 -/

/-- Claim C4: schemas are closed — any metadata key not declared in the
schema makes the strict parse report an unrecognized-keys issue listing
that key, regardless of the key's value. -/
theorem c4_unknown_field_error (schema : FrontmatterSchema) (data : List (FieldName × JsValue))
    (k : FieldName) (v : JsValue)
    (hk : klookup schema k = none) (hmem : (k, v) ∈ data) :
    ∃ ks, Issue.unknownKeys ks ∈ safeParse schema data ∧ k ∈ ks := by
  have hkmem : (k, v) ∈ data.filter (fun kv => (klookup schema kv.1).isNone) :=
    List.mem_filter.mpr ⟨hmem, by rw [hk]; rfl⟩
  have hkun : k ∈ unknownKeysOf schema data :=
    List.mem_map.mpr ⟨(k, v), hkmem, rfl⟩
  refine ⟨unknownKeysOf schema data, ?_, hkun⟩
  rw [safeParse]
  apply List.mem_append_right
  have hne : (unknownKeysOf schema data).isEmpty ≠ true := by
    intro hcontra
    rw [List.isEmpty_iff] at hcontra
    rw [hcontra] at hkun
    exact List.not_mem_nil k hkun
  rw [if_neg hne]
  exact List.mem_singleton.mpr rfl

/-- A schema declaring only a required string `title`. -/
def exSchema4 : FrontmatterSchema :=
  [("title".toList, { type := .bstring, required := true })]

/-- Metadata with a valid `title` and an undeclared `oops` key. -/
def exData4 : List (FieldName × JsValue) :=
  [("title".toList, .strV "t".toList), ("oops".toList, .numV 1)]

/-- Witness for C4 at a concrete document carrying an undeclared key. -/
theorem c4_unknown_field_error_witness :
    klookup exSchema4 "oops".toList = none ∧
    ∃ ks, Issue.unknownKeys ks ∈ safeParse exSchema4 exData4 ∧ "oops".toList ∈ ks :=
  ⟨rfl,
    c4_unknown_field_error exSchema4 exData4 "oops".toList (.numV 1) rfl (by decide)⟩

/-! ## Claim C3 -/

/-- Claim C3 (amended): a field with `required: false` and a default
generator, absent from a document, validates successfully — but the
default is *not* materialized during validation: the compiled validator
never consults `field.default`, so the validation outcome is identical for
any two defaults (in particular the generator is never invoked), and the
field is simply treated as missing.  The original claim's "generator is
invoked exactly once and validation runs against the materialized value"
is refuted by `c3_counterexample`. -/
theorem c3_default_never_materialized (f : FrontmatterField) (d₁ d₂ : Option DefaultVal)
    (v? : Option JsValue) (hreq : f.required = false) :
    validateField f none = true ∧
    validateField { f with default := d₁ } v? = validateField { f with default := d₂ } v? := by
  constructor
  · rw [validateField, hreq]
    rfl
  · cases v? <;> rfl

/-- An optional unique string field whose default is a generator. -/
def exGenField : FrontmatterField :=
  { type := .bstring, required := false, unique := true,
    default := some (.gen (fun _ => .strV "generated".toList)) }

/-- The same field with a different generator. -/
def exGenFieldB : FrontmatterField :=
  { type := .bstring, required := false, unique := true,
    default := some (.gen (fun _ => .strV "other".toList)) }

/-- A schema with only the generator-defaulted field. -/
def exSchema3 : FrontmatterSchema := [("tag".toList, exGenField)]

/-- The same schema under the other generator. -/
def exSchema3b : FrontmatterSchema := [("tag".toList, exGenFieldB)]

/-- A document omitting the field. -/
def exOmitA : ValDoc := ⟨"a.md".toList, []⟩

/-- A second document omitting the field. -/
def exOmitB : ValDoc := ⟨"b.md".toList, []⟩

/-- Witness for C3: the generator-defaulted field, absent, validates, and
swapping the generator changes nothing. -/
theorem c3_default_never_materialized_witness :
    exGenField.required = false ∧
    validateField exGenField none = true ∧
    validateField { exGenField with default := exGenFieldB.default } none =
      validateField { exGenField with default := exGenField.default } none :=
  ⟨rfl,
    (c3_default_never_materialized exGenField exGenFieldB.default exGenField.default none rfl).1,
    (c3_default_never_materialized exGenField exGenFieldB.default exGenField.default none rfl).2⟩

/-- Counterexample to C3 as stated: two documents both omit a unique field
that carries a constant default generator.  If validation materialized the
default (invoking the generator once per document), both documents would
validate against the same value `"generated"` and the uniqueness map would
record and then flag it; instead the run reports no errors, records
nothing in the uniqueness trace or map, and its outcome is bit-identical
under a different generator — the generator is never invoked. -/
theorem c3_counterexample :
    (runValidate exSchema3 [exOmitA, exOmitB]).errors = [] ∧
    (runValidate exSchema3 [exOmitA, exOmitB]).trace = [] ∧
    (runValidate exSchema3 [exOmitA, exOmitB]).maps "tag".toList = [] ∧
    (runValidate exSchema3 [exOmitA, exOmitB]).errors =
      (runValidate exSchema3b [exOmitA, exOmitB]).errors ∧
    (runValidate exSchema3 [exOmitA, exOmitB]).trace =
      (runValidate exSchema3b [exOmitA, exOmitB]).trace :=
  ⟨rfl, rfl, rfl, rfl, rfl⟩

/-! ## Claim C9 -/

/-- Claim C9 (amended): when `enumValues` is installed (nonempty, and its
first `String`-coerced member nonempty), the compiled validator *replaces*
the base-type validator with `z.enum(enumValues.map(String))`: a present
value (or each array element when `isArray`) validates if and only if it
is a **string** belonging to the `String`-coercions of `enumValues` —
membership is decided by string coercion, not under the field's base type.
The original claim ("membership decided on the value as typed by the
field's baseType") is refuted by `c9_counterexample`. -/
theorem c9_enum_membership_by_string (f : FrontmatterField) (v : JsValue) (es : List Str)
    (he : effectiveEnum f = some es) :
    (f.isArray = false → (validateField f (some v) = true ↔ ∃ s, v = .strV s ∧ s ∈ es)) ∧
    (f.isArray = true → (validateField f (some v) = true ↔
      ∃ l, v = .arrV l ∧ ∀ x ∈ l, ∃ s, x = .strV s ∧ s ∈ es)) := by
  have helem : ∀ w, elemCheck f w = true ↔ ∃ s, w = JsValue.strV s ∧ s ∈ es := by
    intro w
    rw [elemCheck, he]
    cases w <;> simp
  have hsh : validateField f (some v) = if f.isArray then (match v with
      | JsValue.arrV l => l.all (elemCheck f)
      | _ => false) else elemCheck f v := rfl
  constructor
  · intro hna
    rw [hsh, hna]
    simp only [Bool.false_eq_true, if_false]
    exact helem v
  · intro ha
    rw [hsh, ha]
    simp only [if_true]
    cases v <;> simp [List.all_eq_true, helem]

/-- A number field with enum `[1, 2]`. -/
def exNumEnumField : FrontmatterField := { type := .bnumber, enum := some [.eNum 1, .eNum 2] }

/-- Counterexample to C9 as stated: for a `number` field with
`enum: [1, 2]`, the number `1` — a member of `enumValues` — fails
validation, while the string `"1"` — not a member of `enumValues` as
typed — passes: the compiled enum accepts exactly the coerced strings. -/
theorem c9_counterexample :
    validateField exNumEnumField (some (JsValue.numV 1)) = false ∧
    validateField exNumEnumField (some (JsValue.strV "1".toList)) = true := by decide

/-- Witness for C9: for the number-enum field, a value validates exactly
when it is one of the coerced strings, in both the plain and the array
form. -/
theorem c9_enum_membership_by_string_witness :
    effectiveEnum exNumEnumField = some ["1".toList, "2".toList] ∧
    (validateField exNumEnumField (some (JsValue.strV "2".toList)) = true ↔
      ∃ s, JsValue.strV "2".toList = JsValue.strV s ∧ s ∈ ["1".toList, "2".toList]) :=
  ⟨by decide,
    (c9_enum_membership_by_string exNumEnumField (JsValue.strV "2".toList)
      ["1".toList, "2".toList] (by decide)).1 rfl⟩

/-! ## Helpers about lookups and run-state evolution -/

theorem klookup_mem {κ α : Type} [DecidableEq κ] :
    ∀ {l : List (κ × α)} {k : κ} {v : α}, klookup l k = some v → (k, v) ∈ l := by
  intro l
  induction l with
  | nil => intro k v h; simp [klookup] at h
  | cons p t ih =>
    intro k v h
    obtain ⟨k', v'⟩ := p
    rw [klookup] at h
    by_cases hk : k' = k
    · rw [if_pos hk] at h
      injection h with h
      subst hk
      subst h
      exact List.mem_cons_self _ _
    · rw [if_neg hk] at h
      exact List.mem_cons_of_mem _ (ih h)

theorem checkUniques_errors_mono (idx : Nat) (file : Str) (data : List (FieldName × JsValue)) :
    ∀ (fields : List (FieldName × FrontmatterField)) (st : RunState) (e : RunError),
      e ∈ st.errors → e ∈ (checkUniques idx file data fields st).errors := by
  intro fields
  induction fields with
  | nil => intro st e he; simpa [checkUniques] using he
  | cons fp rest ih =>
    intro st e he
    obtain ⟨fname, fd⟩ := fp
    simp only [checkUniques]
    cases hv : pvalue data fname with
    | none => exact ih st e he
    | some v =>
      apply ih
      unfold uniqueStep
      split
      · exact List.mem_append_left _ he
      · exact he

theorem processDoc_errors_mono (schema : FrontmatterSchema) (idx : Nat) (st : RunState)
    (d : ValDoc) (e : RunError) (he : e ∈ st.errors) :
    e ∈ (processDoc schema idx st d).errors := by
  simp only [processDoc]
  by_cases hp : (safeParse schema d.metadata).isEmpty = true
  · rw [if_pos hp]
    exact checkUniques_errors_mono _ _ _ _ _ _ he
  · rw [if_neg hp]
    exact List.mem_append_left _ he

theorem runFrom_errors_mono (schema : FrontmatterSchema) :
    ∀ (ds : List ValDoc) (idx : Nat) (st : RunState) (e : RunError),
      e ∈ st.errors → e ∈ (runFrom schema idx st ds).errors := by
  intro ds
  induction ds with
  | nil => intro idx st e he; simpa [runFrom] using he
  | cons d ds ih =>
    intro idx st e he
    rw [runFrom]
    exact ih _ _ _ (processDoc_errors_mono _ _ _ _ _ he)

theorem checkUniques_lookup_some (idx : Nat) (file : Str) (data : List (FieldName × JsValue)) :
    ∀ (fields : List (FieldName × FrontmatterField)) (st : RunState) (f : FieldName)
      (k : UKey) (v₀ : Str), klookup (st.maps f) k = some v₀ →
      klookup ((checkUniques idx file data fields st).maps f) k = some v₀ := by
  intro fields
  induction fields with
  | nil => intro st f k v₀ h; simpa [checkUniques] using h
  | cons fp rest ih =>
    intro st f k v₀ h
    obtain ⟨fname, fd⟩ := fp
    simp only [checkUniques]
    cases hv : pvalue data fname with
    | none => exact ih st f k v₀ h
    | some v =>
      apply ih
      unfold uniqueStep
      split
      · exact h
      · rename_i hkl
        show klookup (if f = fname then (keyOf idx v, file) :: st.maps fname else st.maps f) k =
          some v₀
        by_cases hf : f = fname
        · rw [if_pos hf]
          subst hf
          have hne : keyOf idx v ≠ k := by
            intro hcontra
            rw [hcontra, h] at hkl
            exact Option.noConfusion hkl
          rw [klookup, if_neg hne]
          exact h
        · rw [if_neg hf]
          exact h

theorem processDoc_lookup_some (schema : FrontmatterSchema) (idx : Nat) (st : RunState)
    (d : ValDoc) (f : FieldName) (k : UKey) (v₀ : Str)
    (h : klookup (st.maps f) k = some v₀) :
    klookup ((processDoc schema idx st d).maps f) k = some v₀ := by
  simp only [processDoc]
  by_cases hp : (safeParse schema d.metadata).isEmpty = true
  · rw [if_pos hp]
    exact checkUniques_lookup_some _ _ _ _ _ _ _ _ h
  · rw [if_neg hp]
    exact h

/-! ## Soundness of the uniqueness maps and duplicate errors -/

/-- Document number `m` of the run sources the map entry `(k, file)` for
field `f`: it parsed successfully, its filename is `file`, and its present
value for `f` produces key `k`. -/
def SrcAt (schema : FrontmatterSchema) (docs : List ValDoc) (m : Nat) (f : FieldName)
    (k : UKey) (file : Str) : Prop :=
  ∃ d, docs[m]? = some d ∧ safeParse schema d.metadata = [] ∧ d.filename = file ∧
    ∃ v, presentValue d f = some v ∧ k = keyOf m v

/-- Every map entry is sourced by a document processed before `bound`. -/
def MapSound (schema : FrontmatterSchema) (docs : List ValDoc) (bound : Nat)
    (st : RunState) : Prop :=
  ∀ f k file, (k, file) ∈ st.maps f → ∃ m, m < bound ∧ SrcAt schema docs m f k file

/-- Every duplicate error pairs two documents processed before `bound`, in
order, sharing the same key for the field: first seen in the earlier one. -/
def DupSound (schema : FrontmatterSchema) (docs : List ValDoc) (bound : Nat)
    (st : RunState) : Prop :=
  ∀ f c a, RunError.dup f c a ∈ st.errors →
    ∃ m m' k, m < m' ∧ m' < bound ∧
      SrcAt schema docs m f k a ∧ SrcAt schema docs m' f k c

theorem mapSound_mono {schema : FrontmatterSchema} {docs : List ValDoc} {b b' : Nat}
    {st : RunState} (h : MapSound schema docs b st) (hb : b ≤ b') :
    MapSound schema docs b' st := by
  intro f k file hmem
  obtain ⟨m, hm, hsrc⟩ := h f k file hmem
  exact ⟨m, by omega, hsrc⟩

theorem dupSound_mono {schema : FrontmatterSchema} {docs : List ValDoc} {b b' : Nat}
    {st : RunState} (h : DupSound schema docs b st) (hb : b ≤ b') :
    DupSound schema docs b' st := by
  intro f c a hmem
  obtain ⟨m, m', k, h1, h2, h3, h4⟩ := h f c a hmem
  exact ⟨m, m', k, h1, by omega, h3, h4⟩

theorem uniqueStep_maps_hit {idx : Nat} {file : Str} {fname : FieldName} {key : UKey}
    {st : RunState} {first : Str} (hkl : klookup (st.maps fname) key = some first)
    (f' : FieldName) : (uniqueStep idx file fname key st).maps f' = st.maps f' := by
  unfold uniqueStep
  split
  · rfl
  · rename_i h
    rw [h] at hkl
    exact Option.noConfusion hkl

theorem uniqueStep_maps_miss {idx : Nat} {file : Str} {fname : FieldName} {key : UKey}
    {st : RunState} (hkl : klookup (st.maps fname) key = none) (f' : FieldName) :
    (uniqueStep idx file fname key st).maps f' =
      if f' = fname then (key, file) :: st.maps fname else st.maps f' := by
  unfold uniqueStep
  split
  · rename_i h
    rw [h] at hkl
    exact Option.noConfusion hkl
  · rfl

theorem uniqueStep_errors_hit {idx : Nat} {file : Str} {fname : FieldName} {key : UKey}
    {st : RunState} {first : Str} (hkl : klookup (st.maps fname) key = some first) :
    (uniqueStep idx file fname key st).errors = st.errors ++ [RunError.dup fname file first] := by
  unfold uniqueStep
  split
  · rename_i f0 h
    rw [h] at hkl
    injection hkl with hkl
    rw [hkl]
  · rename_i h
    rw [h] at hkl
    exact Option.noConfusion hkl

theorem uniqueStep_errors_miss {idx : Nat} {file : Str} {fname : FieldName} {key : UKey}
    {st : RunState} (hkl : klookup (st.maps fname) key = none) :
    (uniqueStep idx file fname key st).errors = st.errors := by
  unfold uniqueStep
  split
  · rename_i h
    rw [h] at hkl
    exact Option.noConfusion hkl
  · rfl

theorem checkUniques_sound (schema : FrontmatterSchema) (docs : List ValDoc) (idx : Nat)
    (d : ValDoc) (hd : docs[idx]? = some d) (hok : safeParse schema d.metadata = []) :
    ∀ (fields : List (FieldName × FrontmatterField)) (st : RunState),
      (fields.map Prod.fst).Nodup →
      MapSound schema docs (idx + 1) st →
      (∀ fp ∈ fields, ∀ k file, (k, file) ∈ st.maps fp.1 →
        ∃ m, m < idx ∧ SrcAt schema docs m fp.1 k file) →
      DupSound schema docs (idx + 1) st →
      MapSound schema docs (idx + 1)
        (checkUniques idx d.filename d.metadata fields st) ∧
      DupSound schema docs (idx + 1)
        (checkUniques idx d.filename d.metadata fields st) := by
  intro fields
  induction fields with
  | nil =>
    intro st _ hms _ hds
    exact ⟨hms, hds⟩
  | cons fp rest ih =>
    intro st hnd hms hfresh hds
    obtain ⟨fname, fd⟩ := fp
    have hndr : (rest.map Prod.fst).Nodup := (List.nodup_cons.mp hnd).2
    have hnmem : fname ∉ rest.map Prod.fst := (List.nodup_cons.mp hnd).1
    simp only [checkUniques]
    cases hv : pvalue d.metadata fname with
    | none =>
      exact ih st hndr hms (fun fp hfp => hfresh fp (List.mem_cons_of_mem _ hfp)) hds
    | some v =>
      have hsrcthis : SrcAt schema docs idx fname (keyOf idx v) d.filename :=
        ⟨d, hd, hok, rfl, v, hv, rfl⟩
      cases hkl : klookup (st.maps fname) (keyOf idx v) with
      | some first =>
        apply ih _ hndr
        · intro f k file hmem
          rw [uniqueStep_maps_hit hkl] at hmem
          exact hms f k file hmem
        · intro fp hfp k file hmem
          rw [uniqueStep_maps_hit hkl] at hmem
          exact hfresh fp (List.mem_cons_of_mem _ hfp) k file hmem
        · intro f c a hmem
          rw [uniqueStep_errors_hit hkl] at hmem
          rcases List.mem_append.mp hmem with hold | hnew
          · exact hds f c a hold
          · have heq : RunError.dup f c a = RunError.dup fname d.filename first :=
              List.mem_singleton.mp hnew
            have hfe : f = fname := by injection heq
            have hce : c = d.filename := by injection heq
            have hae : a = first := by injection heq
            subst hfe
            subst hce
            subst hae
            obtain ⟨m, hm, hsrc⟩ := hfresh (f, fd) (List.mem_cons_self _ _) (keyOf idx v) a
              (klookup_mem hkl)
            exact ⟨m, idx, keyOf idx v, by omega, by omega, hsrc, hsrcthis⟩
      | none =>
        apply ih _ hndr
        · intro f k file hmem
          rw [uniqueStep_maps_miss hkl] at hmem
          by_cases hf : f = fname
          · rw [if_pos hf] at hmem
            subst hf
            rcases List.mem_cons.mp hmem with heq | hmem'
            · have h1 : k = keyOf idx v := congrArg Prod.fst heq
              have h2 : file = d.filename := congrArg Prod.snd heq
              subst h1
              subst h2
              exact ⟨idx, by omega, hsrcthis⟩
            · exact hms f k file hmem'
          · rw [if_neg hf] at hmem
            exact hms f k file hmem
        · intro fp hfp k file hmem
          rw [uniqueStep_maps_miss hkl] at hmem
          have hf : fp.1 ≠ fname := by
            intro hcontra
            apply hnmem
            rw [← hcontra]
            exact List.mem_map.mpr ⟨fp, hfp, rfl⟩
          rw [if_neg hf] at hmem
          exact hfresh fp (List.mem_cons_of_mem _ hfp) k file hmem
        · intro f c a hmem
          rw [uniqueStep_errors_miss hkl] at hmem
          exact hds f c a hmem

theorem processDoc_sound (schema : FrontmatterSchema) (docs : List ValDoc) (idx : Nat)
    (st : RunState) (d : ValDoc) (hd : docs[idx]? = some d)
    (hnodupf : (schema.map Prod.fst).Nodup)
    (hms : MapSound schema docs idx st) (hds : DupSound schema docs idx st) :
    MapSound schema docs (idx + 1) (processDoc schema idx st d) ∧
    DupSound schema docs (idx + 1) (processDoc schema idx st d) := by
  simp only [processDoc]
  by_cases hp : (safeParse schema d.metadata).isEmpty = true
  · rw [if_pos hp]
    rw [List.isEmpty_iff] at hp
    have hnodupu : ((uniqueFieldsOf schema).map Prod.fst).Nodup := by
      apply List.Nodup.sublist _ hnodupf
      exact List.Sublist.map _ (List.filter_sublist schema)
    exact checkUniques_sound schema docs idx d hd hp (uniqueFieldsOf schema) st hnodupu
      (mapSound_mono hms (by omega))
      (fun fp _ k file hmem => hms fp.1 k file hmem)
      (dupSound_mono hds (by omega))
  · rw [if_neg hp]
    constructor
    · exact mapSound_mono hms (by omega)
    · intro f c a hmem
      rcases List.mem_append.mp hmem with hold | hnew
      · exact dupSound_mono hds (by omega) f c a hold
      · have := List.mem_singleton.mp hnew
        exact absurd this (by intro hcontra; exact RunError.noConfusion hcontra)

theorem runFrom_sound (schema : FrontmatterSchema) (docs : List ValDoc)
    (hnodupf : (schema.map Prod.fst).Nodup) :
    ∀ (ds : List ValDoc) (idx : Nat) (st : RunState),
      docs.drop idx = ds →
      MapSound schema docs idx st → DupSound schema docs idx st →
      MapSound schema docs (idx + ds.length) (runFrom schema idx st ds) ∧
      DupSound schema docs (idx + ds.length) (runFrom schema idx st ds) := by
  intro ds
  induction ds with
  | nil =>
    intro idx st _ hms hds
    simpa [runFrom] using ⟨hms, hds⟩
  | cons d ds ih =>
    intro idx st hdrop hms hds
    have hd : docs[idx]? = some d := by
      have h0 : (docs.drop idx)[0]? = some d := by rw [hdrop]; simp
      rwa [List.getElem?_drop, Nat.add_zero] at h0
    have hdrop' : docs.drop (idx + 1) = ds := by
      have : docs.drop (idx + 1) = (docs.drop idx).drop 1 := by
        rw [List.drop_drop, Nat.add_comm]
      rw [this, hdrop]
      simp
    rw [runFrom]
    obtain ⟨hms', hds'⟩ := processDoc_sound schema docs idx st d hd hnodupf hms hds
    have hres := ih (idx + 1) _ hdrop' hms' hds'
    have harith : idx + 1 + ds.length = idx + (d :: ds).length := by
      simp
      omega
    rwa [harith] at hres

/-- Soundness of duplicate errors for a whole run: any reported duplicate
pairs an earlier and a later successfully-validated document carrying the
same uniqueness key, first seen in the earlier one. -/
theorem runValidate_dup_sound (schema : FrontmatterSchema) (docs : List ValDoc)
    (hnodupf : (schema.map Prod.fst).Nodup)
    {f : FieldName} {c a : Str}
    (hmem : RunError.dup f c a ∈ (runValidate schema docs).errors) :
    ∃ m m' k, m < m' ∧ m' < docs.length ∧
      SrcAt schema docs m f k a ∧ SrcAt schema docs m' f k c := by
  have hinit : MapSound schema docs 0 initState := by
    intro f k file hmem'
    simp [initState] at hmem'
  have hinit2 : DupSound schema docs 0 initState := by
    intro f c a hmem'
    simp [initState] at hmem'
  obtain ⟨_, hds⟩ := runFrom_sound schema docs hnodupf docs 0 initState rfl hinit hinit2
  have := hds f c a hmem
  simpa using this

/-! ## Claim C10 -/

theorem safeParse_nil_valid {schema : FrontmatterSchema} {data : List (FieldName × JsValue)}
    (h : safeParse schema data = []) {fp : FieldName × FrontmatterField} (hmem : fp ∈ schema) :
    validateField fp.2 (klookup data fp.1) = true := by
  rw [safeParse] at h
  have hfi : fieldIssuesOf schema data = [] := (List.append_eq_nil.mp h).1
  rw [fieldIssuesOf, List.filterMap_eq_nil] at hfi
  have := hfi fp hmem
  by_cases hv : validateField fp.2 (klookup data fp.1) = true
  · exact hv
  · rw [if_neg hv] at this
    exact absurd this (by simp)

theorem pvalue_klookup {data : List (FieldName × JsValue)} {f : FieldName} {v : JsValue}
    (h : pvalue data f = some v) : klookup data f = some v := by
  cases hkl : klookup data f with
  | none =>
    rw [pvalue, hkl] at h
    exact Option.noConfusion h
  | some w =>
    rw [pvalue, hkl] at h
    cases w <;> simp_all

theorem validateField_unfold_some (fd : FrontmatterField) (v : JsValue) :
    validateField fd (some v) = if fd.isArray then (match v with
      | JsValue.arrV l => l.all (elemCheck fd)
      | _ => false) else elemCheck fd v := rfl

theorem validateField_array {fd : FrontmatterField} {v : JsValue} (harr : fd.isArray = true)
    (hv : validateField fd (some v) = true) : ∃ l, v = JsValue.arrV l := by
  rw [validateField_unfold_some, harr] at hv
  simp only [if_true] at hv
  cases v with
  | arrV l => exact ⟨l, rfl⟩
  | nullV => exact absurd hv (by simp)
  | boolV b => exact absurd hv (by simp)
  | numV n => exact absurd hv (by simp)
  | strV s => exact absurd hv (by simp)

/-- Claim C10: for a unique field declared with `isArray: true`, the
validator never reports a `DuplicateUnique` between two distinct
documents, even when their array values are element-wise equal: the
uniqueness map keys each parsed array by object identity (a fresh object
per parse), so no two documents can collide on it. -/
theorem c10_array_unique_never_flagged (schema : FrontmatterSchema) (docs : List ValDoc)
    (f : FieldName) (fd : FrontmatterField) (c a : Str)
    (hnodupf : (schema.map Prod.fst).Nodup)
    (hf : klookup schema f = some fd) (harr : fd.isArray = true) :
    RunError.dup f c a ∉ (runValidate schema docs).errors := by
  intro hmem
  obtain ⟨m, m', k, hmm', _, hsrcA, hsrcC⟩ := runValidate_dup_sound schema docs hnodupf hmem
  obtain ⟨dA, hdA, hokA, _, vA, hvA, hkA⟩ := hsrcA
  obtain ⟨dC, hdC, hokC, _, vC, hvC, hkC⟩ := hsrcC
  have hvalidA := safeParse_nil_valid hokA (klookup_mem hf)
  have hvalidC := safeParse_nil_valid hokC (klookup_mem hf)
  rw [show ((f, fd) : FieldName × FrontmatterField).1 = f from rfl,
    show ((f, fd) : FieldName × FrontmatterField).2 = fd from rfl] at hvalidA hvalidC
  rw [pvalue_klookup hvA] at hvalidA
  rw [pvalue_klookup hvC] at hvalidC
  obtain ⟨lA, hlA⟩ := validateField_array harr hvalidA
  obtain ⟨lC, hlC⟩ := validateField_array harr hvalidC
  subst hlA
  subst hlC
  rw [show keyOf m (JsValue.arrV lA) = UKey.ref m from rfl] at hkA
  rw [show keyOf m' (JsValue.arrV lC) = UKey.ref m' from rfl] at hkC
  rw [hkA] at hkC
  have : m = m' := by injection hkC
  omega

/-- A unique array-of-strings field. -/
def exTagsField : FrontmatterField := { type := .bstring, isArray := true, unique := true }

/-- A schema with only the unique array field. -/
def exSchema10 : FrontmatterSchema := [("tags".toList, exTagsField)]

/-- A document with tags `["x", "y"]`. -/
def exArrDocA : ValDoc :=
  ⟨"a.md".toList, [("tags".toList, .arrV [.strV "x".toList, .strV "y".toList])]⟩

/-- A second document with the element-wise equal tags `["x", "y"]`. -/
def exArrDocB : ValDoc :=
  ⟨"b.md".toList, [("tags".toList, .arrV [.strV "x".toList, .strV "y".toList])]⟩

/-- Witness for C10: two documents with element-wise equal tag arrays are
never flagged as duplicates (indeed the run reports no errors at all). -/
theorem c10_array_unique_never_flagged_witness :
    klookup exSchema10 "tags".toList = some exTagsField ∧
    exTagsField.isArray = true ∧
    RunError.dup "tags".toList "b.md".toList "a.md".toList ∉
      (runValidate exSchema10 [exArrDocA, exArrDocB]).errors ∧
    (runValidate exSchema10 [exArrDocA, exArrDocB]).errors = [] :=
  ⟨rfl, rfl,
    c10_array_unique_never_flagged exSchema10 [exArrDocA, exArrDocB] "tags".toList exTagsField
      "b.md".toList "a.md".toList (by decide) rfl rfl,
    by decide⟩

/-! ## Emission and persistence of uniqueness-map entries -/

theorem keyOf_prim {v : JsValue} (hprim : ∀ l, v ≠ JsValue.arrV l) (m : Nat) :
    keyOf m v = UKey.prim v := by
  cases v with
  | arrV l => exact absurd rfl (hprim l)
  | nullV => rfl
  | boolV b => rfl
  | numV n => rfl
  | strV s => rfl

theorem checkUniques_emit (idx : Nat) (file : Str) (data : List (FieldName × JsValue))
    (f : FieldName) (v : JsValue) (fileX : Str) :
    ∀ (fields : List (FieldName × FrontmatterField)) (st : RunState),
      (∃ fd', (f, fd') ∈ fields) →
      pvalue data f = some v →
      klookup (st.maps f) (keyOf idx v) = some fileX →
      RunError.dup f file fileX ∈ (checkUniques idx file data fields st).errors := by
  intro fields
  induction fields with
  | nil =>
    rintro st ⟨fd', hfd'⟩ _ _
    exact absurd hfd' (List.not_mem_nil _)
  | cons fp rest ih =>
    rintro st ⟨fd', hfd'⟩ hv hkl
    obtain ⟨fname, fd⟩ := fp
    simp only [checkUniques]
    by_cases hfn : fname = f
    · subst hfn
      rw [hv]
      apply checkUniques_errors_mono
      rw [uniqueStep_errors_hit hkl]
      exact List.mem_append_right _ (List.mem_singleton.mpr rfl)
    · have hrest : ∃ fd', (f, fd') ∈ rest := by
        rcases List.mem_cons.mp hfd' with heq | hmem
        · exact absurd (congrArg Prod.fst heq).symm hfn
        · exact ⟨fd', hmem⟩
      cases hv2 : pvalue data fname with
      | none => exact ih st hrest hv hkl
      | some w =>
        apply ih _ hrest hv
        cases hkl2 : klookup (st.maps fname) (keyOf idx w) with
        | some first =>
          rw [uniqueStep_maps_hit hkl2]
          exact hkl
        | none =>
          rw [uniqueStep_maps_miss hkl2, if_neg (fun hc => hfn hc.symm)]
          exact hkl

theorem checkUniques_install (idx : Nat) (file : Str) (data : List (FieldName × JsValue))
    (f : FieldName) (v : JsValue) :
    ∀ (fields : List (FieldName × FrontmatterField)) (st : RunState),
      (∃ fd', (f, fd') ∈ fields) →
      pvalue data f = some v →
      klookup (st.maps f) (keyOf idx v) = none →
      klookup ((checkUniques idx file data fields st).maps f) (keyOf idx v) = some file := by
  intro fields
  induction fields with
  | nil =>
    rintro st ⟨fd', hfd'⟩ _ _
    exact absurd hfd' (List.not_mem_nil _)
  | cons fp rest ih =>
    rintro st ⟨fd', hfd'⟩ hv hkl
    obtain ⟨fname, fd⟩ := fp
    simp only [checkUniques]
    by_cases hfn : fname = f
    · subst hfn
      rw [hv]
      apply checkUniques_lookup_some
      rw [uniqueStep_maps_miss hkl, if_pos rfl, klookup, if_pos rfl]
    · have hrest : ∃ fd', (f, fd') ∈ rest := by
        rcases List.mem_cons.mp hfd' with heq | hmem
        · exact absurd (congrArg Prod.fst heq).symm hfn
        · exact ⟨fd', hmem⟩
      cases hv2 : pvalue data fname with
      | none => exact ih st hrest hv hkl
      | some w =>
        apply ih _ hrest hv
        cases hkl2 : klookup (st.maps fname) (keyOf idx w) with
        | some first =>
          rw [uniqueStep_maps_hit hkl2]
          exact hkl
        | none =>
          rw [uniqueStep_maps_miss hkl2, if_neg (fun hc => hfn hc.symm)]
          exact hkl

theorem checkUniques_lookup_none (idx : Nat) (file : Str) (data : List (FieldName × JsValue))
    (f : FieldName) (k : UKey)
    (havoid : ∀ w, pvalue data f = some w → keyOf idx w ≠ k) :
    ∀ (fields : List (FieldName × FrontmatterField)) (st : RunState),
      klookup (st.maps f) k = none →
      klookup ((checkUniques idx file data fields st).maps f) k = none := by
  intro fields
  induction fields with
  | nil => intro st h; simpa [checkUniques] using h
  | cons fp rest ih =>
    intro st h
    obtain ⟨fname, fd⟩ := fp
    simp only [checkUniques]
    cases hv2 : pvalue data fname with
    | none => exact ih st h
    | some w =>
      apply ih
      cases hkl2 : klookup (st.maps fname) (keyOf idx w) with
      | some first =>
        rw [uniqueStep_maps_hit hkl2]
        exact h
      | none =>
        rw [uniqueStep_maps_miss hkl2]
        by_cases hf : f = fname
        · subst hf
          rw [if_pos rfl]
          have hne : keyOf idx w ≠ k := havoid w hv2
          rw [klookup, if_neg hne]
          exact h
        · rw [if_neg hf]
          exact h

theorem processDoc_install (schema : FrontmatterSchema) (idx : Nat) (st : RunState)
    (A : ValDoc) (f : FieldName) (v : JsValue) (fd' : FrontmatterField)
    (hok : safeParse schema A.metadata = [])
    (hfu : (f, fd') ∈ uniqueFieldsOf schema)
    (hv : presentValue A f = some v)
    (hnone : klookup (st.maps f) (keyOf idx v) = none) :
    klookup ((processDoc schema idx st A).maps f) (keyOf idx v) = some A.filename := by
  simp only [processDoc]
  rw [if_pos (List.isEmpty_iff.mpr hok)]
  exact checkUniques_install idx A.filename A.metadata f v (uniqueFieldsOf schema) st
    ⟨fd', hfu⟩ hv hnone

theorem processDoc_emit (schema : FrontmatterSchema) (idx : Nat) (st : RunState)
    (C : ValDoc) (f : FieldName) (v : JsValue) (fd' : FrontmatterField) (fileX : Str)
    (hok : safeParse schema C.metadata = [])
    (hfu : (f, fd') ∈ uniqueFieldsOf schema)
    (hv : presentValue C f = some v)
    (hsome : klookup (st.maps f) (keyOf idx v) = some fileX) :
    RunError.dup f C.filename fileX ∈ (processDoc schema idx st C).errors := by
  simp only [processDoc]
  rw [if_pos (List.isEmpty_iff.mpr hok)]
  exact checkUniques_emit idx C.filename C.metadata f v fileX (uniqueFieldsOf schema) st
    ⟨fd', hfu⟩ hv hsome

theorem processDoc_lookup_none (schema : FrontmatterSchema) (idx : Nat) (st : RunState)
    (d : ValDoc) (f : FieldName) (k : UKey)
    (havoid : ¬ (safeParse schema d.metadata = [] ∧
      ∃ w, presentValue d f = some w ∧ keyOf idx w = k))
    (h : klookup (st.maps f) k = none) :
    klookup ((processDoc schema idx st d).maps f) k = none := by
  simp only [processDoc]
  by_cases hp : (safeParse schema d.metadata).isEmpty = true
  · rw [if_pos hp]
    rw [List.isEmpty_iff] at hp
    apply checkUniques_lookup_none _ _ _ _ _ _ _ _ h
    intro w hw hcontra
    exact havoid ⟨hp, w, hw, hcontra⟩
  · rw [if_neg hp]
    exact h

theorem runFrom_phase2 (schema : FrontmatterSchema) (docs : List ValDoc)
    (j : Nat) (C : ValDoc) (f : FieldName) (v : JsValue) (fd' : FrontmatterField)
    (afile : Str)
    (hC : docs[j]? = some C) (hokC : safeParse schema C.metadata = [])
    (hfu : (f, fd') ∈ uniqueFieldsOf schema) (hvC : presentValue C f = some v)
    (hprim : ∀ l, v ≠ JsValue.arrV l) :
    ∀ (ds : List ValDoc) (idx : Nat) (st : RunState),
      docs.drop idx = ds → idx ≤ j →
      klookup (st.maps f) (UKey.prim v) = some afile →
      RunError.dup f C.filename afile ∈ (runFrom schema idx st ds).errors := by
  have hjlen : j < docs.length := (List.getElem?_eq_some.mp hC).1
  intro ds
  induction ds with
  | nil =>
    intro idx st hdrop hij _
    have := List.drop_eq_nil_iff_le.mp hdrop
    omega
  | cons d ds ih =>
    intro idx st hdrop hij hlook
    have hd : docs[idx]? = some d := by
      have h0 : (docs.drop idx)[0]? = some d := by rw [hdrop]; simp
      rwa [List.getElem?_drop, Nat.add_zero] at h0
    have hdrop' : docs.drop (idx + 1) = ds := by
      have h1 : docs.drop (idx + 1) = (docs.drop idx).drop 1 := by
        rw [List.drop_drop, Nat.add_comm]
      rw [h1, hdrop]
      simp
    rw [runFrom]
    by_cases hij2 : idx = j
    · subst hij2
      have hdC : d = C := by
        rw [hd] at hC
        injection hC
      subst hdC
      apply runFrom_errors_mono
      apply processDoc_emit schema idx st d f v fd' afile hokC hfu hvC
      rw [keyOf_prim hprim]
      exact hlook
    · exact ih (idx + 1) _ hdrop' (by omega)
        (processDoc_lookup_some schema idx st d f (UKey.prim v) afile hlook)

theorem runFrom_phase1 (schema : FrontmatterSchema) (docs : List ValDoc)
    (i j : Nat) (A C : ValDoc) (f : FieldName) (v : JsValue) (fd' : FrontmatterField)
    (hij : i < j)
    (hA : docs[i]? = some A) (hC : docs[j]? = some C)
    (hokA : safeParse schema A.metadata = []) (hokC : safeParse schema C.metadata = [])
    (hfu : (f, fd') ∈ uniqueFieldsOf schema)
    (hvA : presentValue A f = some v) (hvC : presentValue C f = some v)
    (hprim : ∀ l, v ≠ JsValue.arrV l)
    (hfirst : ∀ m, m < i → ∀ d', docs[m]? = some d' →
      ¬(safeParse schema d'.metadata = [] ∧ presentValue d' f = some v)) :
    ∀ (ds : List ValDoc) (idx : Nat) (st : RunState),
      docs.drop idx = ds → idx ≤ i →
      klookup (st.maps f) (UKey.prim v) = none →
      RunError.dup f C.filename A.filename ∈ (runFrom schema idx st ds).errors := by
  have hjlen : j < docs.length := (List.getElem?_eq_some.mp hC).1
  intro ds
  induction ds with
  | nil =>
    intro idx st hdrop hii _
    have := List.drop_eq_nil_iff_le.mp hdrop
    omega
  | cons d ds ih =>
    intro idx st hdrop hii hlook
    have hd : docs[idx]? = some d := by
      have h0 : (docs.drop idx)[0]? = some d := by rw [hdrop]; simp
      rwa [List.getElem?_drop, Nat.add_zero] at h0
    have hdrop' : docs.drop (idx + 1) = ds := by
      have h1 : docs.drop (idx + 1) = (docs.drop idx).drop 1 := by
        rw [List.drop_drop, Nat.add_comm]
      rw [h1, hdrop]
      simp
    rw [runFrom]
    by_cases hii2 : idx = i
    · subst hii2
      have hdA : d = A := by
        rw [hd] at hA
        injection hA
      subst hdA
      have hinst := processDoc_install schema idx st d f v fd' hokA hfu hvA
        (by rw [keyOf_prim hprim]; exact hlook)
      rw [keyOf_prim hprim] at hinst
      exact runFrom_phase2 schema docs j C f v fd' d.filename hC hokC hfu hvC hprim
        ds (idx + 1) _ hdrop' (by omega) hinst
    · apply ih (idx + 1) _ hdrop' (by omega)
      apply processDoc_lookup_none schema idx st d f (UKey.prim v) _ hlook
      rintro ⟨hok', w, hw, hkw⟩
      have hwv : w = v := by
        cases w with
        | arrV l =>
          exfalso
          rw [show keyOf idx (JsValue.arrV l) = UKey.ref idx from rfl] at hkw
          exact UKey.noConfusion hkw
        | nullV =>
          rw [show keyOf idx JsValue.nullV = UKey.prim JsValue.nullV from rfl] at hkw
          injection hkw
        | boolV b =>
          rw [show keyOf idx (JsValue.boolV b) = UKey.prim (JsValue.boolV b) from rfl] at hkw
          injection hkw
        | numV n =>
          rw [show keyOf idx (JsValue.numV n) = UKey.prim (JsValue.numV n) from rfl] at hkw
          injection hkw
        | strV s =>
          rw [show keyOf idx (JsValue.strV s) = UKey.prim (JsValue.strV s) from rfl] at hkw
          injection hkw
      subst hwv
      exact hfirst idx (by omega) d hd ⟨hok', hw⟩

/-! ## Claim C6 -/

theorem filename_index_unique {docs : List ValDoc}
    (hnodup : (docs.map ValDoc.filename).Nodup)
    {m j : Nat} {d C : ValDoc} (hdm : docs[m]? = some d) (hC : docs[j]? = some C)
    (hfile : d.filename = C.filename) : m = j := by
  obtain ⟨hmlt, hmeq⟩ := List.getElem?_eq_some.mp hdm
  obtain ⟨hjlt, hjeq⟩ := List.getElem?_eq_some.mp hC
  have hmlt' : m < (docs.map ValDoc.filename).length := by simpa using hmlt
  have hjlt' : j < (docs.map ValDoc.filename).length := by simpa using hjlt
  have hget : (docs.map ValDoc.filename).get ⟨m, hmlt'⟩ =
      (docs.map ValDoc.filename).get ⟨j, hjlt'⟩ := by
    simp only [List.get_eq_getElem, List.getElem_map]
    rw [hmeq, hjeq]
    exact hfile
  have := hnodup.get_inj_iff.mp hget
  exact congrArg Fin.val this

/-- Claim C6: when an earlier document `A` (the first successfully
validated document carrying the value) and a later document `C` share the
same present, non-array value of a unique field, the `DuplicateUnique`
violation is attributed to the later file `C` and references the earlier
file `A` — and never the reverse. -/
theorem c6_duplicate_attributed_to_later (schema : FrontmatterSchema) (docs : List ValDoc)
    (i j : Nat) (A C : ValDoc) (f : FieldName) (fd : FrontmatterField) (v : JsValue)
    (hnodupf : (schema.map Prod.fst).Nodup)
    (hnodup : (docs.map ValDoc.filename).Nodup)
    (hij : i < j)
    (hA : docs[i]? = some A) (hC : docs[j]? = some C)
    (hfu : (f, fd) ∈ schema) (hu : fd.unique = true)
    (hokA : safeParse schema A.metadata = []) (hokC : safeParse schema C.metadata = [])
    (hvA : presentValue A f = some v) (hvC : presentValue C f = some v)
    (hprim : ∀ l, v ≠ JsValue.arrV l)
    (hfirst : ∀ m, m < i → ∀ d', docs[m]? = some d' →
      ¬(safeParse schema d'.metadata = [] ∧ presentValue d' f = some v)) :
    RunError.dup f C.filename A.filename ∈ (runValidate schema docs).errors ∧
    RunError.dup f A.filename C.filename ∉ (runValidate schema docs).errors := by
  constructor
  · have hfuU : (f, fd) ∈ uniqueFieldsOf schema := by
      rw [uniqueFieldsOf, List.mem_filter]
      exact ⟨hfu, hu⟩
    exact runFrom_phase1 schema docs i j A C f v fd hij hA hC hokA hokC hfuU hvA hvC hprim
      hfirst docs 0 initState rfl (by omega) rfl
  · intro hmem
    obtain ⟨m, m', k, hmm', _, hsrcC', hsrcA'⟩ := runValidate_dup_sound schema docs hnodupf hmem
    obtain ⟨dm, hdm, _, hdmfile, _⟩ := hsrcC'
    obtain ⟨dm', hdm', _, hdm'file, _⟩ := hsrcA'
    have hm_eq : m = j := filename_index_unique hnodup hdm hC hdmfile
    have hm'_eq : m' = i := filename_index_unique hnodup hdm' hA hdm'file
    omega

/-- A schema with one required unique string `id`. -/
def exSchema6 : FrontmatterSchema := [("id".toList, exIdField)]

/-- Document A, first with id `"X"`. -/
def exC6A : ValDoc := ⟨"a.md".toList, [("id".toList, .strV "X".toList)]⟩

/-- Document B, with a different id. -/
def exC6B : ValDoc := ⟨"b.md".toList, [("id".toList, .strV "Y".toList)]⟩

/-- Document C, repeating A's id. -/
def exC6C : ValDoc := ⟨"c.md".toList, [("id".toList, .strV "X".toList)]⟩

/-- Witness for C6: with documents A, B, C processed in order and A and C
sharing the id `"X"`, the duplicate is attributed to `c.md` referencing
`a.md`, never the reverse. -/
theorem c6_duplicate_attributed_to_later_witness :
    RunError.dup "id".toList "c.md".toList "a.md".toList ∈
      (runValidate exSchema6 [exC6A, exC6B, exC6C]).errors ∧
    RunError.dup "id".toList "a.md".toList "c.md".toList ∉
      (runValidate exSchema6 [exC6A, exC6B, exC6C]).errors :=
  c6_duplicate_attributed_to_later exSchema6 [exC6A, exC6B, exC6C] 0 2 exC6A exC6C
    "id".toList exIdField (JsValue.strV "X".toList)
    (by decide) (by decide) (by decide) (by decide) (by decide)
    (List.mem_singleton.mpr rfl) rfl rfl rfl rfl rfl
    (fun _ h => JsValue.noConfusion h)
    (fun m hm => absurd hm (by omega))

end Folio
